import Mathlib

set_option maxRecDepth 10000

/-!
Verification development for the streaming chat-completions decoder of
bedrock-vscode-chat (src/provider.ts, src/utils.ts).

The first part of the file is a shallow embedding of the relevant source
code: a JSON value model and parser standing for JSON.parse as used by
tryParseJSONObject, the UTF-8 stream decoder, the line framer, the SSE
line handling of processStreamingResponse, and the tool-call buffering of
processDelta / tryEmitBufferedToolCall.  The second part proves the spec
claims C1 - C10 about these definitions.
-/
/-- JSON/JS values as produced by JSON.parse. -/
inductive JSValue where
  | jnull : JSValue
  | jbool (b : Bool) : JSValue
  | jnum (m : Int) (e : Int) : JSValue
  | jstr (s : List Char) : JSValue
  | jarr (xs : List JSValue) : JSValue
  | jobj (fs : List (List Char × JSValue)) : JSValue
deriving Repr

mutual

/-- Structural equality test on JSON values. -/
def jsBeq : JSValue → JSValue → Bool
  | .jnull, .jnull => true
  | .jbool a, .jbool b => a = b
  | .jnum m e, .jnum m' e' => m = m' ∧ e = e'
  | .jstr s, .jstr t => s = t
  | .jarr xs, .jarr ys => jsBeqList xs ys
  | .jobj fs, .jobj gs => jsBeqFields fs gs
  | _, _ => false

def jsBeqList : List JSValue → List JSValue → Bool
  | [], [] => true
  | x :: xs, y :: ys => jsBeq x y && jsBeqList xs ys
  | _, _ => false

def jsBeqFields : List (List Char × JSValue) → List (List Char × JSValue) → Bool
  | [], [] => true
  | (k, v) :: fs, (l, w) :: gs => (k = l : Bool) && jsBeq v w && jsBeqFields fs gs
  | _, _ => false

end

mutual

def jsBeq_iff : ∀ a b, jsBeq a b = true ↔ a = b
  | .jnull, .jnull => by simp [jsBeq]
  | .jbool a, .jbool b => by simp [jsBeq]
  | .jnum m e, .jnum m' e' => by simp [jsBeq]
  | .jstr s, .jstr t => by simp [jsBeq]
  | .jarr xs, .jarr ys => by simp [jsBeq, jsBeqList_iff xs ys]
  | .jobj fs, .jobj gs => by simp [jsBeq, jsBeqFields_iff fs gs]
  | .jnull, .jbool _ => by simp [jsBeq]
  | .jnull, .jnum _ _ => by simp [jsBeq]
  | .jnull, .jstr _ => by simp [jsBeq]
  | .jnull, .jarr _ => by simp [jsBeq]
  | .jnull, .jobj _ => by simp [jsBeq]
  | .jbool _, .jnull => by simp [jsBeq]
  | .jbool _, .jnum _ _ => by simp [jsBeq]
  | .jbool _, .jstr _ => by simp [jsBeq]
  | .jbool _, .jarr _ => by simp [jsBeq]
  | .jbool _, .jobj _ => by simp [jsBeq]
  | .jnum _ _, .jnull => by simp [jsBeq]
  | .jnum _ _, .jbool _ => by simp [jsBeq]
  | .jnum _ _, .jstr _ => by simp [jsBeq]
  | .jnum _ _, .jarr _ => by simp [jsBeq]
  | .jnum _ _, .jobj _ => by simp [jsBeq]
  | .jstr _, .jnull => by simp [jsBeq]
  | .jstr _, .jbool _ => by simp [jsBeq]
  | .jstr _, .jnum _ _ => by simp [jsBeq]
  | .jstr _, .jarr _ => by simp [jsBeq]
  | .jstr _, .jobj _ => by simp [jsBeq]
  | .jarr _, .jnull => by simp [jsBeq]
  | .jarr _, .jbool _ => by simp [jsBeq]
  | .jarr _, .jnum _ _ => by simp [jsBeq]
  | .jarr _, .jstr _ => by simp [jsBeq]
  | .jarr _, .jobj _ => by simp [jsBeq]
  | .jobj _, .jnull => by simp [jsBeq]
  | .jobj _, .jbool _ => by simp [jsBeq]
  | .jobj _, .jnum _ _ => by simp [jsBeq]
  | .jobj _, .jstr _ => by simp [jsBeq]
  | .jobj _, .jarr _ => by simp [jsBeq]

def jsBeqList_iff : ∀ xs ys, jsBeqList xs ys = true ↔ xs = ys
  | [], [] => by simp [jsBeqList]
  | x :: xs, y :: ys => by
    simp [jsBeqList, jsBeq_iff x y, jsBeqList_iff xs ys]
  | [], _ :: _ => by simp [jsBeqList]
  | _ :: _, [] => by simp [jsBeqList]

def jsBeqFields_iff : ∀ fs gs, jsBeqFields fs gs = true ↔ fs = gs
  | [], [] => by simp [jsBeqFields]
  | (k, v) :: fs, (l, w) :: gs => by
    simp [jsBeqFields, jsBeq_iff v w, jsBeqFields_iff fs gs, Prod.ext_iff, and_assoc]
  | [], _ :: _ => by simp [jsBeqFields]
  | _ :: _, [] => by simp [jsBeqFields]

end

instance : DecidableEq JSValue := fun a b => decidable_of_iff _ (jsBeq_iff a b)

def isJsonWs (c : Char) : Bool := c = ' ' ∨ c = '\t' ∨ c = '\n' ∨ c = '\r'

def skipWs (s : List Char) : List Char := s.dropWhile isJsonWs

def isDigit (c : Char) : Bool := 48 ≤ c.toNat ∧ c.toNat ≤ 57

def digitVal (c : Char) : Nat := c.toNat - 48

def digitsToNat (ds : List Char) : Nat := ds.foldl (fun a c => a * 10 + digitVal c) 0

def hexVal (c : Char) : Option Nat :=
  if 48 ≤ c.toNat ∧ c.toNat ≤ 57 then some (c.toNat - 48)
  else if 97 ≤ c.toNat ∧ c.toNat ≤ 102 then some (c.toNat - 87)
  else if 65 ≤ c.toNat ∧ c.toNat ≤ 70 then some (c.toNat - 55)
  else none

def escChar (e : Char) : Option Char :=
  if e = '"' then some '"'
  else if e = '\\' then some '\\'
  else if e = '/' then some '/'
  else if e = 'b' then some (Char.ofNat 8)
  else if e = 'f' then some (Char.ofNat 12)
  else if e = 'n' then some '\n'
  else if e = 'r' then some '\r'
  else if e = 't' then some '\t'
  else none

def parseStringBody : List Char → Option (List Char × List Char)
  | [] => none
  | c :: r =>
    if c = '"' then some ([], r)
    else if c = '\\' then
      match r with
      | [] => none
      | e :: r2 =>
        if e = 'u' then
          match r2 with
          | x1 :: x2 :: x3 :: x4 :: r3 =>
            match hexVal x1, hexVal x2, hexVal x3, hexVal x4 with
            | some a, some b, some c3, some d =>
              (match parseStringBody r3 with
               | some (cs, rr) => some (Char.ofNat (((a * 16 + b) * 16 + c3) * 16 + d) :: cs, rr)
               | none => none)
            | _, _, _, _ => none
          | _ => none
        else
          match escChar e with
          | some ec =>
            (match parseStringBody r2 with
             | some (cs, rr) => some (ec :: cs, rr)
             | none => none)
          | none => none
    else if c.toNat < 32 then none
    else
      match parseStringBody r with
      | some (cs, rr) => some (c :: cs, rr)
      | none => none

def stripTrailingZeros (ds : List Char) : List Char × Nat :=
  let r := (ds.reverse.dropWhile (· = '0')).reverse
  (r, ds.length - r.length)

def mkNum (neg : Bool) (intDs fracDs : List Char) (esign : Int) (expDs : List Char) : JSValue :=
  let (sig, dropped) := stripTrailingZeros (intDs ++ fracDs)
  if sig = [] then .jnum 0 0
  else
    let m : Int := Int.ofNat (digitsToNat sig)
    let e : Int := esign * Int.ofNat (digitsToNat expDs) - Int.ofNat fracDs.length + Int.ofNat dropped
    .jnum (if neg then -m else m) e

def expSign (r : List Char) : Int × List Char :=
  match r with
  | c :: rr => if c = '+' then (1, rr) else if c = '-' then (-1, rr) else (1, c :: rr)
  | [] => (1, [])

def afterExp (neg : Bool) (intDs fracDs : List Char) (s : List Char) : Option (JSValue × List Char) :=
  match s with
  | c :: r =>
    if c = 'e' ∨ c = 'E' then
      let p := expSign r
      let ed := p.2.takeWhile isDigit
      let r2 := p.2.dropWhile isDigit
      if ed = [] then none else some (mkNum neg intDs fracDs p.1 ed, r2)
    else some (mkNum neg intDs fracDs 1 [], c :: r)
  | [] => some (mkNum neg intDs fracDs 1 [], [])

def afterFrac (neg : Bool) (intDs : List Char) (s : List Char) : Option (JSValue × List Char) :=
  match s with
  | c :: r =>
    if c = '.' then
      let fd := r.takeWhile isDigit
      let r2 := r.dropWhile isDigit
      if fd = [] then none else afterExp neg intDs fd r2
    else afterExp neg intDs [] (c :: r)
  | [] => afterExp neg intDs [] []

def parseNumber (s : List Char) : Option (JSValue × List Char) :=
  let p : Bool × List Char :=
    match s with
    | c :: r => if c = '-' then (true, r) else (false, c :: r)
    | [] => (false, [])
  match p.2 with
  | c :: r1 =>
    if c = '0' then afterFrac p.1 ['0'] r1
    else if isDigit c then
      afterFrac p.1 (c :: r1.takeWhile isDigit) (r1.dropWhile isDigit)
    else none
  | [] => none

def objInsert : List (List Char × JSValue) → List Char → JSValue → List (List Char × JSValue)
  | [], k, v => [(k, v)]
  | (k', v') :: fs, k, v =>
    if k' = k then (k', v) :: fs else (k', v') :: objInsert fs k v

mutual

def parseVal : Nat → List Char → Option (JSValue × List Char)
  | 0, _ => none
  | fuel + 1, s =>
    match s with
    | [] => none
    | c :: rest =>
      if c = '{' then
        match skipWs rest with
        | '}' :: r => some (.jobj [], r)
        | s' => parseObjItems fuel s' []
      else if c = '[' then
        match skipWs rest with
        | ']' :: r => some (.jarr [], r)
        | s' => parseArrItems fuel s' []
      else if c = '"' then
        match parseStringBody rest with
        | some (cs, r) => some (.jstr cs, r)
        | none => none
      else if c = 't' then
        match rest with
        | 'r' :: 'u' :: 'e' :: r => some (.jbool true, r)
        | _ => none
      else if c = 'f' then
        match rest with
        | 'a' :: 'l' :: 's' :: 'e' :: r => some (.jbool false, r)
        | _ => none
      else if c = 'n' then
        match rest with
        | 'u' :: 'l' :: 'l' :: r => some (.jnull, r)
        | _ => none
      else parseNumber (c :: rest)

def parseObjItems : Nat → List Char → List (List Char × JSValue) → Option (JSValue × List Char)
  | 0, _, _ => none
  | fuel + 1, s, acc =>
    match s with
    | '"' :: rest =>
      match parseStringBody rest with
      | none => none
      | some (key, r1) =>
        match skipWs r1 with
        | ':' :: r2 =>
          match parseVal fuel (skipWs r2) with
          | none => none
          | some (v, r3) =>
            match skipWs r3 with
            | ',' :: r4 => parseObjItems fuel (skipWs r4) (objInsert acc key v)
            | '}' :: r4 => some (.jobj (objInsert acc key v), r4)
            | _ => none
        | _ => none
    | _ => none

def parseArrItems : Nat → List Char → List JSValue → Option (JSValue × List Char)
  | 0, _, _ => none
  | fuel + 1, s, acc =>
    match parseVal fuel s with
    | none => none
    | some (v, r1) =>
      match skipWs r1 with
      | ',' :: r2 => parseArrItems fuel (skipWs r2) (acc ++ [v])
      | ']' :: r2 => some (.jarr (acc ++ [v]), r2)
      | _ => none

end

def jsonParse (s : List Char) : Option JSValue :=
  match parseVal (s.length + 1) (skipWs s) with
  | some (v, r) => if skipWs r = [] then some v else none
  | none => none

def tryParseJSONObject (s : List Char) : Option (List (List Char × JSValue)) :=
  match jsonParse s with
  | some (.jobj fs) => some fs
  | _ => none

def truthyV : JSValue → Bool
  | .jnull => false
  | .jbool b => b
  | .jnum m _ => m ≠ 0
  | .jstr s => s ≠ []
  | .jarr _ => true
  | .jobj _ => true

def truthy : Option JSValue → Bool
  | none => false
  | some v => truthyV v

def jsGet (v : JSValue) (k : List Char) : Option JSValue :=
  match v with
  | .jobj fs => (fs.find? (fun p => p.1 = k)).map Prod.snd
  | _ => none

def optChain (v : Option JSValue) (k : List Char) : Option JSValue :=
  match v with
  | none => none
  | some .jnull => none
  | some w => jsGet w k

def iterElems : JSValue → Option (List JSValue)
  | .jarr xs => some xs
  | .jstr s => some (s.map (fun c => .jstr [c]))
  | _ => none

def renderNum (m e : Int) : List Char :=
  let sign : List Char := if m < 0 then ['-'] else []
  let ds := (Nat.repr m.natAbs).data
  if 0 ≤ e then sign ++ ds ++ List.replicate e.toNat '0'
  else
    let k := (-e).toNat
    if k < ds.length then sign ++ ds.take (ds.length - k) ++ '.' :: ds.drop (ds.length - k)
    else sign ++ '0' :: '.' :: (List.replicate (k - ds.length) '0' ++ ds)

mutual

def jsToString : JSValue → List Char
  | .jnull => "null".data
  | .jbool b => if b then "true".data else "false".data
  | .jnum m e => renderNum m e
  | .jstr s => s
  | .jarr xs => jsToStringElems xs
  | .jobj _ => "[object Object]".data

def jsToStringE : JSValue → List Char
  | .jnull => []
  | .jbool b => if b then "true".data else "false".data
  | .jnum m e => renderNum m e
  | .jstr s => s
  | .jarr xs => jsToStringElems xs
  | .jobj _ => "[object Object]".data

def jsToStringElems : List JSValue → List Char
  | [] => []
  | [x] => jsToStringE x
  | x :: xs => jsToStringE x ++ ',' :: jsToStringElems xs

end

structure BufferedToolCall where
  id : Option JSValue := none
  name : Option JSValue := none
  args : List Char := []
deriving DecidableEq, Repr

structure DecoderState where
  toolCallBuffers : List (Option JSValue × BufferedToolCall) := []
  completedToolCallIndices : List (Option JSValue) := []
  callCtr : Nat := 0
  reportedAnyPart : Bool := false
deriving DecidableEq, Repr

def alGet {V : Type} : List (Option JSValue × V) → Option JSValue → Option V
  | [], _ => none
  | (k, v) :: m, k' => if k = k' then some v else alGet m k'

def alSet {V : Type} : List (Option JSValue × V) → Option JSValue → V → List (Option JSValue × V)
  | [], k, v => [(k, v)]
  | (k', v') :: m, k, v => if k' = k then (k', v) :: m else (k', v') :: alSet m k v

def alDel {V : Type} : List (Option JSValue × V) → Option JSValue → List (Option JSValue × V)
  | [], _ => []
  | (k', v') :: m, k => if k' = k then m else (k', v') :: alDel m k

def setMem : List (Option JSValue) → Option JSValue → Bool
  | [], _ => false
  | k' :: s, k => k' = k || setMem s k

def setAdd (s : List (Option JSValue)) (k : Option JSValue) : List (Option JSValue) :=
  if setMem s k then s else s ++ [k]

inductive SSEEvent where
  | text (v : JSValue)
  | toolCall (id : JSValue) (name : JSValue) (args : List (List Char × JSValue))
deriving DecidableEq, Repr

def generateCallId (n : Nat) : List Char := "call_".data ++ (Nat.repr n).data

def tryEmitBufferedToolCall (idx : Option JSValue) (st : DecoderState) :
    List SSEEvent × DecoderState :=
  match alGet st.toolCallBuffers idx with
  | none => ([], st)
  | some buf =>
    match buf.name with
    | none => ([], st)
    | some nm =>
      if truthyV nm = false then ([], st)
      else
        match tryParseJSONObject buf.args with
        | none => ([], st)
        | some fields =>
          let p : JSValue × Nat :=
            match buf.id with
            | some idv =>
              if truthyV idv then (idv, st.callCtr)
              else (.jstr (generateCallId st.callCtr), st.callCtr + 1)
            | none => (.jstr (generateCallId st.callCtr), st.callCtr + 1)
          ([SSEEvent.toolCall p.1 nm fields],
            { st with toolCallBuffers := alDel st.toolCallBuffers idx,
                      completedToolCallIndices := setAdd st.completedToolCallIndices idx,
                      callCtr := p.2 })

def applyToolFragment (tc : JSValue) (st : DecoderState) : DecoderState :=
  let idx := jsGet tc "index".data
  let buf0 := (alGet st.toolCallBuffers idx).getD ⟨none, none, []⟩
  let idv := jsGet tc "id".data
  let buf1 := if truthy idv then { buf0 with id := idv } else buf0
  let fn := jsGet tc "function".data
  let nm := optChain fn "name".data
  let buf2 := if truthy nm then { buf1 with name := nm } else buf1
  let av := optChain fn "arguments".data
  let buf3 :=
    match av with
    | some a => if truthyV a then { buf2 with args := buf2.args ++ jsToString a } else buf2
    | none => buf2
  { st with toolCallBuffers := alSet st.toolCallBuffers idx buf3 }

def processToolCall (tc : JSValue) (st : DecoderState) :
    Option (List SSEEvent × DecoderState) :=
  match tc with
  | .jnull => none
  | _ =>
    let idx := jsGet tc "index".data
    if setMem st.completedToolCallIndices idx then some ([], st)
    else some (tryEmitBufferedToolCall idx (applyToolFragment tc st))

def processToolCalls : List JSValue → DecoderState → List SSEEvent × DecoderState × Bool
  | [], st => ([], st, true)
  | tc :: rest, st =>
    match processToolCall tc st with
    | none => ([], st, false)
    | some (evs, st1) =>
      let r := processToolCalls rest st1
      (evs ++ r.1, r.2.1, r.2.2)

def reasoningStep (cfg : Bool) (delta : JSValue) (st : DecoderState) :
    List SSEEvent × DecoderState :=
  let rv := jsGet delta "reasoning".data
  if truthy rv ∧ ¬st.reportedAnyPart ∧ cfg then
    ([SSEEvent.text (.jstr "Thinking…".data)], { st with reportedAnyPart := true })
  else ([], st)

def contentStep (cfg : Bool) (delta : JSValue) (st : DecoderState) :
    List SSEEvent × DecoderState :=
  match jsGet delta "content".data with
  | some cv =>
    if truthyV cv then ([SSEEvent.text cv], { st with reportedAnyPart := true })
    else reasoningStep cfg delta st
  | none => reasoningStep cfg delta st

def processChoiceTools (tcv : Option JSValue) (r1 : List SSEEvent × DecoderState) :
    List SSEEvent × DecoderState × Bool :=
  match tcv with
  | some tv =>
    if truthyV tv then
      match iterElems tv with
      | none => (r1.1, r1.2, false)
      | some elems =>
        let r2 := processToolCalls elems r1.2
        (r1.1 ++ r2.1, r2.2.1, r2.2.2)
    else (r1.1, r1.2, true)
  | none => (r1.1, r1.2, true)

def processChoice (cfg : Bool) (choice : JSValue) (st : DecoderState) :
    List SSEEvent × DecoderState × Bool :=
  match choice with
  | .jnull => ([], st, false)
  | _ =>
    match jsGet choice "delta".data with
    | none => ([], st, false)
    | some .jnull => ([], st, false)
    | some delta =>
      processChoiceTools (jsGet delta "tool_calls".data) (contentStep cfg delta st)

def processChoices (cfg : Bool) : List JSValue → DecoderState → List SSEEvent × DecoderState × Bool
  | [], st => ([], st, true)
  | x :: xs, st =>
    match processChoice cfg x st with
    | (evs, st1, false) => (evs, st1, false)
    | (evs, st1, true) =>
      let r := processChoices cfg xs st1
      (evs ++ r.1, r.2.1, r.2.2)

def processDelta (cfg : Bool) (chunk : JSValue) (st : DecoderState) :
    List SSEEvent × DecoderState × Bool :=
  match chunk with
  | .jnull => ([], st, false)
  | _ =>
    match jsGet chunk "choices".data with
    | none => ([], st, false)
    | some cv =>
      match iterElems cv with
      | none => ([], st, false)
      | some xs => processChoices cfg xs st

def isJsWs (c : Char) : Bool :=
  c = ' ' ∨ c = '\t' ∨ c = '\n' ∨ c = '\r' ∨ c.toNat = 11 ∨ c.toNat = 12 ∨
  c.toNat = 0xa0 ∨ c.toNat = 0xfeff ∨ c.toNat = 0x2028 ∨ c.toNat = 0x2029

def trimStartJs (s : List Char) : List Char := s.dropWhile isJsWs

def trimJs (s : List Char) : List Char :=
  ((s.dropWhile isJsWs).reverse.dropWhile isJsWs).reverse

def hasPrefixL (pre s : List Char) : Bool := s.take pre.length = pre

structure StreamState where
  ds : DecoderState := {}
  emittedAny : Bool := false
  doneSeen : Bool := false
  events : List SSEEvent := []
deriving DecidableEq, Repr

def flushBuffers : List (Option JSValue) → DecoderState → List SSEEvent × DecoderState
  | [], st => ([], st)
  | k :: ks, st =>
    let r1 := tryEmitBufferedToolCall k st
    let r2 := flushBuffers ks r1.2
    (r1.1 ++ r2.1, r2.2)

def processLine (cfg : Bool) (st : StreamState) (line : List Char) : StreamState :=
  let trimmed := trimJs line
  if trimmed = [] then st
  else if hasPrefixL ":".data trimmed then st
  else if ¬ hasPrefixL "data:".data trimmed then st
  else
    let data := trimStartJs (trimmed.drop 5)
    if data = "[DONE]".data then
      let keys := st.ds.toolCallBuffers.map Prod.fst
      let r := flushBuffers keys st.ds
      { st with ds := r.2, events := st.events ++ r.1, doneSeen := true }
    else if data = [] then st
    else
      match jsonParse data with
      | none => st
      | some chunk =>
        let r := processDelta cfg chunk st.ds
        { st with ds := r.2.1, events := st.events ++ r.1,
                  emittedAny := st.emittedAny || r.2.2 }

def procLines (cfg : Bool) : StreamState → List (List Char) → StreamState
  | st, [] => st
  | st, l :: ls =>
    let st1 := processLine cfg st l
    if st1.doneSeen then st1 else procLines cfg st1 ls

def lineOf (cur : List Char) : List Char :=
  match cur with
  | '\r' :: c2 => c2.reverse
  | _ => cur.reverse

def splitAux : List Char → List Char → List (List Char) × List Char
  | cur, [] => ([], cur.reverse)
  | cur, c :: rest =>
    if c = '\n' then
      let r := splitAux [] rest
      (lineOf cur :: r.1, r.2)
    else splitAux (c :: cur) rest

def splitLines (s : List Char) : List (List Char) × List Char := splitAux [] s

structure Utf8State where
  cp : Nat := 0
  needed : Nat := 0
  lower : Nat := 0x80
  upper : Nat := 0xBF
deriving DecidableEq, Repr

def utf8Begin (b : Nat) : List Char × Utf8State :=
  if b ≤ 0x7F then ([Char.ofNat b], {})
  else if 0xC2 ≤ b ∧ b ≤ 0xDF then ([], { cp := b % 32, needed := 1 })
  else if b = 0xE0 then ([], { cp := b % 16, needed := 2, lower := 0xA0 })
  else if b = 0xED then ([], { cp := b % 16, needed := 2, upper := 0x9F })
  else if 0xE1 ≤ b ∧ b ≤ 0xEF then ([], { cp := b % 16, needed := 2 })
  else if b = 0xF0 then ([], { cp := b % 8, needed := 3, lower := 0x90 })
  else if b = 0xF4 then ([], { cp := b % 8, needed := 3, upper := 0x8F })
  else if 0xF1 ≤ b ∧ b ≤ 0xF3 then ([], { cp := b % 8, needed := 3 })
  else ([Char.ofNat 0xFFFD], {})

def utf8Step (st : Utf8State) (b : Nat) : List Char × Utf8State :=
  if st.needed = 0 then utf8Begin b
  else if st.lower ≤ b ∧ b ≤ st.upper then
    let cp2 := st.cp * 64 + (b % 64)
    if st.needed = 1 then ([Char.ofNat cp2], {})
    else ([], { cp := cp2, needed := st.needed - 1, lower := 0x80, upper := 0xBF })
  else
    let r := utf8Begin b
    (Char.ofNat 0xFFFD :: r.1, r.2)

def feedAux : Utf8State → List Char → List Nat → List Char × Utf8State
  | st, acc, [] => (acc, st)
  | st, acc, b :: bs =>
    let r := utf8Step st b
    feedAux r.2 (acc ++ r.1) bs

def feedBytes (st : Utf8State) (bs : List Nat) : List Char × Utf8State := feedAux st [] bs

structure PipelineState where
  dec : Utf8State := {}
  lineBuf : List Char := []
  ps : StreamState := {}
deriving DecidableEq, Repr

def stepChunk (cfg : Bool) (s : PipelineState) (bytes : List Nat) : PipelineState :=
  let d := feedBytes s.dec bytes
  let r := splitLines (s.lineBuf ++ d.1)
  { dec := d.2, lineBuf := r.2, ps := procLines cfg s.ps r.1 }

def runChunks (cfg : Bool) : PipelineState → List (List Nat) → PipelineState
  | s, [] => s
  | s, c :: cs => if s.ps.doneSeen then s else runChunks cfg (stepChunk cfg s c) cs

def finishStream (cfg : Bool) (s : PipelineState) : StreamState :=
  if ¬ s.ps.doneSeen ∧ trimJs s.lineBuf ≠ [] then processLine cfg s.ps s.lineBuf else s.ps

def processStreamingResponse (cfg : Bool) (chunks : List (List Nat)) : StreamState :=
  finishStream cfg (runChunks cfg {} chunks)

def utf8Encode (c : Char) : List Nat :=
  let n := c.toNat
  if n ≤ 0x7F then [n]
  else if n ≤ 0x7FF then [0xC0 + n / 64, 0x80 + n % 64]
  else if n ≤ 0xFFFF then [0xE0 + n / 4096, 0x80 + n / 64 % 64, 0x80 + n % 64]
  else [0xF0 + n / 262144, 0x80 + n / 4096 % 64, 0x80 + n / 64 % 64, 0x80 + n % 64]

def strBytes (s : String) : List Nat := s.data.flatMap utf8Encode

def streamOutcome (st : StreamState) : List SSEEvent × Bool := (st.events, !st.emittedAny)

inductive LineClass where
  | blank
  | comment
  | meta
  | dataFrame (payload : List Char)
  | term
deriving DecidableEq, Repr

def classifyLine (l : List Char) : LineClass :=
  let t := trimJs l
  if t = [] then .blank
  else if hasPrefixL ":".data t then .comment
  else if hasPrefixL "data:".data t then
    let d := trimStartJs (t.drop 5)
    if d = "[DONE]".data then .term
    else if d = [] then .blank
    else .dataFrame d
  else if hasPrefixL "event:".data t ∨ hasPrefixL "id:".data t ∨ hasPrefixL "retry:".data t then
    .meta
  else .blank

def isTermLine (l : List Char) : Bool := classifyLine l = LineClass.term

def toolCallsOk (xs : List JSValue) : Bool := xs.all (fun tc => tc ≠ JSValue.jnull)

def choiceOk (choice : JSValue) : Bool :=
  match choice with
  | .jnull => false
  | _ =>
    match jsGet choice "delta".data with
    | none => false
    | some .jnull => false
    | some delta =>
      match jsGet delta "tool_calls".data with
      | some tv =>
        if truthyV tv then
          match iterElems tv with
          | none => false
          | some elems => toolCallsOk elems
        else true
      | none => true

def choicesOkAll (xs : List JSValue) : Bool := xs.all choiceOk

def deltaOk (chunk : JSValue) : Bool :=
  match chunk with
  | .jnull => false
  | _ =>
    match jsGet chunk "choices".data with
    | none => false
    | some cv =>
      match iterElems cv with
      | none => false
      | some xs => choicesOkAll xs

def lineContributes (l : List Char) : Bool :=
  match classifyLine l with
  | .dataFrame d =>
    match jsonParse d with
    | none => false
    | some chunk => deltaOk chunk
  | _ => false

def allLinesOf (chunks : List (List Nat)) : List (List Char) :=
  let d := feedBytes {} chunks.flatten
  let r := splitLines d.1
  r.1 ++ [r.2]

def activeLinesOf (chunks : List (List Nat)) : List (List Char) :=
  (allLinesOf chunks).takeWhile (fun l => !isTermLine l)

def choiceText (choice : JSValue) : List JSValue :=
  match choice with
  | .jnull => []
  | _ =>
    match jsGet choice "delta".data with
    | none => []
    | some .jnull => []
    | some delta =>
      match jsGet delta "content".data with
      | some cv => if truthyV cv then [cv] else []
      | none => []

def specTexts : List JSValue → List JSValue
  | [] => []
  | c :: cs => if choiceOk c then choiceText c ++ specTexts cs else choiceText c

def chunkTexts (chunk : JSValue) : List JSValue :=
  match chunk with
  | .jnull => []
  | _ =>
    match jsGet chunk "choices".data with
    | none => []
    | some cv =>
      match iterElems cv with
      | none => []
      | some xs => specTexts xs

def lineTexts (l : List Char) : List JSValue :=
  match classifyLine l with
  | .dataFrame d =>
    match jsonParse d with
    | none => []
    | some chunk => chunkTexts chunk
  | _ => []

def textPayloads (evs : List SSEEvent) : List JSValue :=
  evs.filterMap (fun e => match e with | .text v => some v | _ => none)

def goodToolArgs (ev : SSEEvent) : Prop :=
  ∀ id nm args, ev = SSEEvent.toolCall id nm args → ∃ s, tryParseJSONObject s = some args

def termStep (st : StreamState) : StreamState :=
  { st with ds := (flushBuffers (st.ds.toolCallBuffers.map Prod.fst) st.ds).2,
            events := st.events ++ (flushBuffers (st.ds.toolCallBuffers.map Prod.fst) st.ds).1,
            doneSeen := true }

def dataStep (cfg : Bool) (st : StreamState) (d : List Char) : StreamState :=
  match jsonParse d with
  | none => st
  | some chunk =>
    { st with ds := (processDelta cfg chunk st.ds).2.1,
              events := st.events ++ (processDelta cfg chunk st.ds).1,
              emittedAny := st.emittedAny || (processDelta cfg chunk st.ds).2.2 }

def doneIdx (idx : Option JSValue) (ds : DecoderState) : Prop :=
  setMem ds.completedToolCallIndices idx = true ∧ alGet ds.toolCallBuffers idx = none

def obsEq (s1 s2 : PipelineState) : Prop :=
  s1.ps = s2.ps ∧ (s1.ps.doneSeen = false → s1.lineBuf = s2.lineBuf ∧ s1.dec = s2.dec)

def selfDelim : JSValue → Bool
  | .jnum _ _ => false
  | _ => true

def mkArgFrag (idxV : JSValue) (a : List Char) : JSValue :=
  .jobj [("index".data, idxV), ("function".data, .jobj [("arguments".data, .jstr a)])]

def cidOf : Option JSValue → Nat → JSValue
  | some idv, n => if truthyV idv then idv else .jstr (generateCallId n)
  | none, n => .jstr (generateCallId n)

def ctrOf : Option JSValue → Nat → Nat
  | some idv, n => if truthyV idv then n else n + 1
  | none, n => n + 1

theorem processLine_nonData (cfg : Bool) (st : StreamState) (l : List Char)
    (h : classifyLine l = .blank ∨ classifyLine l = .comment ∨ classifyLine l = .meta) :
    processLine cfg st l = st := by
  unfold processLine
  by_cases h1 : trimJs l = []
  · simp [h1]
  · by_cases h2 : hasPrefixL ":".data (trimJs l)
    · simp [h1, h2]
    · by_cases h3 : hasPrefixL "data:".data (trimJs l)
      · unfold classifyLine at h
        simp only [h1, h2, h3, if_false, if_true, ite_true, ite_false] at h
        by_cases h4 : trimStartJs ((trimJs l).drop 5) = "[DONE]".data
        · simp [h4] at h
        · by_cases h5 : trimStartJs ((trimJs l).drop 5) = []
          · simp [h1, h2, h3, h4, h5]
          · simp [h4, h5] at h
      · simp [h1, h2, h3]

theorem processLine_doneSeen (cfg : Bool) (st : StreamState) (l : List Char) :
    (processLine cfg st l).doneSeen = (st.doneSeen || isTermLine l) := by
  unfold processLine isTermLine classifyLine
  by_cases h1 : trimJs l = []
  · simp [h1]
  · by_cases h2 : hasPrefixL ":".data (trimJs l)
    · simp [h1, h2]
    · by_cases h3 : hasPrefixL "data:".data (trimJs l)
      · by_cases h4 : trimStartJs ((trimJs l).drop 5) = "[DONE]".data
        · simp [h1, h2, h3, h4]
        · by_cases h5 : trimStartJs ((trimJs l).drop 5) = []
          · simp [h1, h2, h3, h4, h5]
          · cases hp : jsonParse (trimStartJs ((trimJs l).drop 5)) <;>
              simp [h1, h2, h3, h4, h5, hp]
      · by_cases h6 : (hasPrefixL "event:".data (trimJs l) ∨ hasPrefixL "id:".data (trimJs l) ∨
          hasPrefixL "retry:".data (trimJs l)) <;> simp [h1, h2, h3, h6]

theorem processLine_eq (cfg : Bool) (st : StreamState) (l : List Char) :
    processLine cfg st l =
      match classifyLine l with
      | .term => termStep st
      | .dataFrame d => dataStep cfg st d
      | _ => st := by
  unfold processLine classifyLine termStep dataStep
  by_cases h1 : trimJs l = []
  · simp [h1]
  · by_cases h2 : hasPrefixL ":".data (trimJs l)
    · simp [h1, h2]
    · by_cases h3 : hasPrefixL "data:".data (trimJs l)
      · by_cases h4 : trimStartJs ((trimJs l).drop 5) = "[DONE]".data
        · simp [h1, h2, h3, h4]
        · by_cases h5 : trimStartJs ((trimJs l).drop 5) = []
          · simp [h1, h2, h3, h4, h5]
          · cases hp : jsonParse (trimStartJs ((trimJs l).drop 5)) <;>
              simp [h1, h2, h3, h4, h5, hp]
      · by_cases h6 : (hasPrefixL "event:".data (trimJs l) ∨ hasPrefixL "id:".data (trimJs l) ∨
          hasPrefixL "retry:".data (trimJs l)) <;> simp [h1, h2, h3, h6]

theorem procLines_cons (cfg : Bool) (st : StreamState) (l : List Char) (ls : List (List Char)) :
    procLines cfg st (l :: ls) =
      (if (processLine cfg st l).doneSeen then processLine cfg st l
       else procLines cfg (processLine cfg st l) ls) := by
  simp [procLines]

theorem procLines_append (cfg : Bool) (a b : List (List Char)) (st : StreamState)
    (h : st.doneSeen = false) :
    procLines cfg st (a ++ b) =
      (if (procLines cfg st a).doneSeen then procLines cfg st a
       else procLines cfg (procLines cfg st a) b) := by
  induction a generalizing st with
  | nil => simp [procLines, h]
  | cons l a ih =>
    rw [List.cons_append, procLines_cons, procLines_cons]
    by_cases hd : (processLine cfg st l).doneSeen
    · simp [hd, procLines_cons]
    · simp only [hd, if_false, ite_false, Bool.false_eq_true]
      exact ih _ (by simp at hd; exact hd)

/-- Spec claim C9. -/
theorem spec_C9 (cfg : Bool) (st : StreamState) (l : List Char)
    (hd : st.doneSeen = false) :
    ((classifyLine l = .blank ∨ classifyLine l = .comment ∨ classifyLine l = .meta) →
      processLine cfg st l = st) ∧
    ((processLine cfg st l).doneSeen = true ↔ classifyLine l = .term) := by
  refine ⟨processLine_nonData cfg st l, ?_⟩
  rw [processLine_doneSeen, hd]
  simp [isTermLine]

theorem spec_C9_witness :
    (processLine false {} ": keepalive".data = {}) ∧
    ((processLine false {} "data: hello".data).doneSeen = true ↔
      classifyLine "data: hello".data = .term) := by
  have h1 := spec_C9 false {} ": keepalive".data rfl
  have h2 := spec_C9 false {} "data: hello".data rfl
  exact ⟨h1.1 (Or.inr (Or.inl (by decide))), h2.2⟩

/-- Spec claim C8. -/
theorem spec_C8 (cfg : Bool) (st : StreamState) (l : List Char) (d : List Char)
    (rest : List (List Char)) (hd : st.doneSeen = false)
    (hc : classifyLine l = .dataFrame d) (hp : jsonParse d = none) :
    processLine cfg st l = st ∧
    procLines cfg st (l :: rest) = procLines cfg st rest := by
  have he : processLine cfg st l = st := by
    rw [processLine_eq, hc]
    simp [dataStep, hp]
  refine ⟨he, ?_⟩
  rw [procLines_cons, he, hd]
  simp

theorem spec_C8_witness :
    processLine false {} "data: \x7binvalid".data = {} ∧
    procLines false {} ["data: \x7binvalid".data, "data: [DONE]".data] =
      procLines false {} ["data: [DONE]".data] := by
  exact spec_C8 false {} "data: \x7binvalid".data "\x7binvalid".data
    ["data: [DONE]".data] rfl (by decide) (by decide)

/-- Spec claim C10. -/
theorem spec_C10 (cfg : Bool) (p : StreamState) (pre : List (List Char)) (d : List Char)
    (post : List (List Char)) (hd : p.doneSeen = false)
    (hpre : ∀ l ∈ pre, classifyLine l ≠ .term) (hterm : classifyLine d = .term) :
    procLines cfg p (pre ++ d :: post) = procLines cfg p (pre ++ [d]) ∧
    (procLines cfg p (pre ++ [d])).doneSeen = true ∧
    (∀ s : PipelineState, s.ps.doneSeen = true →
      finishStream cfg s = s.ps ∧ ∀ cs, runChunks cfg s cs = s) := by
  have hstep : ∀ st : StreamState, (processLine cfg st d).doneSeen = true := by
    intro st
    rw [processLine_doneSeen]
    simp [isTermLine, hterm]
  have main : procLines cfg p (pre ++ d :: post) = procLines cfg p (pre ++ [d]) ∧
      (procLines cfg p (pre ++ [d])).doneSeen = true := by
    induction pre generalizing p with
    | nil =>
      simp only [List.nil_append]
      rw [procLines_cons, procLines_cons, hstep p]
      simp [hstep p]
    | cons l pre ih =>
      have hl : classifyLine l ≠ .term := hpre l (by simp)
      have hld : (processLine cfg p l).doneSeen = false := by
        rw [processLine_doneSeen, hd]
        simp [isTermLine, hl]
      rw [List.cons_append, List.cons_append, procLines_cons, procLines_cons, hld]
      simp only [Bool.false_eq_true, if_false, ite_false]
      exact ih _ hld (fun x hx => hpre x (List.mem_cons_of_mem _ hx))
  refine ⟨main.1, main.2, ?_⟩
  intro s hs
  constructor
  · simp [finishStream, hs]
  · intro cs
    cases cs with
    | nil => rfl
    | cons c cs => simp [runChunks, hs]

theorem spec_C10_witness :
    procLines false {} [": c".data, "data: [DONE]".data, "data: x".data] =
      procLines false {} [": c".data, "data: [DONE]".data] ∧
    (procLines false {} [": c".data, "data: [DONE]".data]).doneSeen = true ∧
    (∀ s : PipelineState, s.ps.doneSeen = true →
      finishStream false s = s.ps ∧ ∀ cs, runChunks false s cs = s) := by
  exact spec_C10 false {} [": c".data] "data: [DONE]".data ["data: x".data] rfl
    (by intro l hl; simp at hl; subst hl; decide) (by decide)

theorem alGet_alSet_self {V : Type} (m : List (Option JSValue × V)) (k : Option JSValue) (v : V) :
    alGet (alSet m k v) k = some v := by
  induction m with
  | nil => simp [alSet, alGet]
  | cons p m ih =>
    by_cases h : p.1 = k
    · simp [alSet, alGet, h]
    · simpa [alSet, alGet, h] using ih

/-- Counterexample to claim C2 as stated. -/
theorem spec_C2_counterexample :
    ((processStreamingResponse false
        [strBytes "data: \x7b\"choices\":[\x7b\"delta\":\x7b\"tool_calls\":[\x7b\"index\":0,\"id\":\"a\",\"function\":\x7b\"name\":\"f\",\"arguments\":\"\x7b\\\"x\\\":\"\x7d\x7d]\x7d\x7d]\x7d\n",
         strBytes "data: \x7b\"choices\":[\x7b\"delta\":\x7b\"tool_calls\":[\x7b\"index\":0,\"id\":\"b\",\"function\":\x7b\"arguments\":\"1\x7d\"\x7d\x7d]\x7d\x7d]\x7d\n",
         strBytes "data: [DONE]\n"]).events =
      [SSEEvent.toolCall (.jstr "b".data) (.jstr "f".data) [("x".data, .jnum 1 0)]]) ∧
    ((processStreamingResponse false
        [strBytes "data: \x7b\"choices\":[\x7b\"delta\":\x7b\"tool_calls\":[\x7b\"index\":0,\"function\":\x7b\"name\":\"f\",\"arguments\":\"\x7b\\\"x\\\":\"\x7d\x7d]\x7d\x7d]\x7d\n",
         strBytes "data: \x7b\"choices\":[\x7b\"delta\":\x7b\"tool_calls\":[\x7b\"index\":0,\"function\":\x7b\"name\":\"g\",\"arguments\":\"1\x7d\"\x7d\x7d]\x7d\x7d]\x7d\n",
         strBytes "data: [DONE]\n"]).events =
      [SSEEvent.toolCall (.jstr (generateCallId 0)) (.jstr "g".data) [("x".data, .jnum 1 0)]]) ∧
    (JSValue.jstr "b".data ≠ .jstr "a".data) ∧ (JSValue.jstr "g".data ≠ .jstr "f".data) := by
  refine ⟨by decide, by decide, by decide, by decide⟩

theorem processToolCall_eq (tc : JSValue) (ds : DecoderState) (hne : tc ≠ .jnull) :
    processToolCall tc ds =
      some (if setMem ds.completedToolCallIndices (jsGet tc "index".data) then ([], ds)
            else tryEmitBufferedToolCall (jsGet tc "index".data) (applyToolFragment tc ds)) := by
  have hsome : ∀ (c : Prop) (inst : Decidable c) (a b : List SSEEvent × DecoderState),
      (if c then some a else some b) = some (if c then a else b) := by
    intro c inst a b
    split <;> rfl
  cases tc with
  | jnull => exact absurd rfl hne
  | jbool b => rw [← hsome]; rfl
  | jnum m e => rw [← hsome]; rfl
  | jstr s => rw [← hsome]; rfl
  | jarr xs => rw [← hsome]; rfl
  | jobj fs => rw [← hsome]; rfl

/-- Amended claim C2: later truthy id/name values overwrite the buffer (last wins). -/
theorem spec_C2 (st : DecoderState) (tc : JSValue) (idx : Option JSValue)
    (idv nmv : JSValue) (oldBuf : BufferedToolCall)
    (hnn : tc ≠ .jnull)
    (hidx : jsGet tc "index".data = idx)
    (hnc : setMem st.completedToolCallIndices idx = false)
    (hbuf : alGet st.toolCallBuffers idx = some oldBuf)
    (hid : jsGet tc "id".data = some idv) (hidt : truthyV idv = true)
    (hnm : optChain (jsGet tc "function".data) "name".data = some nmv)
    (hnmt : truthyV nmv = true)
    (hargs : optChain (jsGet tc "function".data) "arguments".data = none)
    (hnp : tryParseJSONObject oldBuf.args = none) :
    processToolCall tc st =
      some ([], { st with
        toolCallBuffers := alSet st.toolCallBuffers idx ⟨some idv, some nmv, oldBuf.args⟩ }) := by
  have hb3 : ∀ st1 : DecoderState,
      st1.toolCallBuffers = alSet st.toolCallBuffers idx ⟨some idv, some nmv, oldBuf.args⟩ →
      tryEmitBufferedToolCall idx st1 = ([], st1) := by
    intro st1 h1
    unfold tryEmitBufferedToolCall
    rw [h1, alGet_alSet_self]
    simp [hnmt, hnp]
  cases tc with
  | jnull => exact absurd rfl hnn
  | jbool b =>
    simp only [jsGet] at hidx hid
    exact absurd hid (by simp)
  | jnum m e =>
    simp only [jsGet] at hid
    exact absurd hid (by simp)
  | jstr s =>
    simp only [jsGet] at hid
    exact absurd hid (by simp)
  | jarr xs =>
    simp only [jsGet] at hid
    exact absurd hid (by simp)
  | jobj fs =>
    rw [processToolCall_eq _ _ hnn, hidx]
    have happ : applyToolFragment (.jobj fs) st =
        { st with toolCallBuffers := alSet st.toolCallBuffers idx ⟨some idv, some nmv, oldBuf.args⟩ } := by
      unfold applyToolFragment
      simp only [hidx, hbuf, hid, hnm, hargs, Option.getD_some, truthy, hidt, hnmt,
        if_true, ite_true]
    rw [happ] at *
    simp only [hnc, Bool.false_eq_true, if_false, ite_false]
    exact congrArg some (hb3 ({ st with
      toolCallBuffers := alSet st.toolCallBuffers idx ⟨some idv, some nmv, oldBuf.args⟩ }) rfl)

theorem spec_C2_witness :
    processToolCall
      (.jobj [("index".data, .jnum 0 0), ("id".data, .jstr "b".data),
        ("function".data, .jobj [("name".data, .jstr "g".data)])])
      ⟨[(some (.jnum 0 0), ⟨some (.jstr "a".data), some (.jstr "f".data), "\x7b".data⟩)],
        [], 0, false⟩ =
    some ([],
      ⟨[(some (.jnum 0 0), ⟨some (.jstr "b".data), some (.jstr "g".data), "\x7b".data⟩)],
        [], 0, false⟩) := by
  have h := spec_C2
    ⟨[(some (.jnum 0 0), ⟨some (.jstr "a".data), some (.jstr "f".data), "\x7b".data⟩)],
      [], 0, false⟩
    (.jobj [("index".data, .jnum 0 0), ("id".data, .jstr "b".data),
      ("function".data, .jobj [("name".data, .jstr "g".data)])])
    (some (.jnum 0 0)) (.jstr "b".data) (.jstr "g".data)
    ⟨some (.jstr "a".data), some (.jstr "f".data), "\x7b".data⟩
    (by decide) (by decide) (by decide) (by decide) (by decide)
    (by decide) (by decide) (by decide) (by decide) (by decide)
  simpa using h

theorem processToolCall_jnull (st : DecoderState) : processToolCall .jnull st = none := rfl

theorem processToolCall_some (tc : JSValue) (st : DecoderState) (hne : tc ≠ .jnull) :
    (processToolCall tc st).isSome := by
  cases tc with
  | jnull => exact absurd rfl hne
  | jbool b =>
    unfold processToolCall
    by_cases h : setMem st.completedToolCallIndices (jsGet (.jbool b) "index".data) <;> simp [h]
  | jnum m e =>
    unfold processToolCall
    by_cases h : setMem st.completedToolCallIndices (jsGet (.jnum m e) "index".data) <;> simp [h]
  | jstr s =>
    unfold processToolCall
    by_cases h : setMem st.completedToolCallIndices (jsGet (.jstr s) "index".data) <;> simp [h]
  | jarr xs =>
    unfold processToolCall
    by_cases h : setMem st.completedToolCallIndices (jsGet (.jarr xs) "index".data) <;> simp [h]
  | jobj fs =>
    unfold processToolCall
    by_cases h : setMem st.completedToolCallIndices (jsGet (.jobj fs) "index".data) <;> simp [h]

theorem processToolCalls_ok (xs : List JSValue) : ∀ st, (processToolCalls xs st).2.2 = toolCallsOk xs := by
  induction xs with
  | nil => intro st; simp [processToolCalls, toolCallsOk]
  | cons tc rest ih =>
    intro st
    rcases htc : processToolCall tc st with _ | ⟨evs, st1⟩
    · have hn : tc = .jnull := by
        by_contra hne
        have := processToolCall_some tc st hne
        simp [htc] at this
      subst hn
      simp [processToolCalls, htc, toolCallsOk]
    · have hne : tc ≠ .jnull := by
        intro h; subst h; rw [processToolCall_jnull] at htc; exact Option.noConfusion htc
      simp [processToolCalls, htc, toolCallsOk, hne, ih st1]

theorem processChoiceTools_ok (tcv : Option JSValue) (r1 : List SSEEvent × DecoderState) :
    (processChoiceTools tcv r1).2.2 =
      (match tcv with
       | some tv =>
         if truthyV tv then
           (match iterElems tv with
            | none => false
            | some elems => toolCallsOk elems)
         else true
       | none => true) := by
  rcases tcv with _ | tv
  · rfl
  · simp only [processChoiceTools]
    by_cases htr : truthyV tv
    · simp only [htr, if_true, ite_true]
      rcases hi : iterElems tv with _ | elems
      · simp [hi]
      · simp [hi, processToolCalls_ok]
    · simp [htr]

theorem processChoice_ok (cfg : Bool) (c : JSValue) (st : DecoderState) :
    (processChoice cfg c st).2.2 = choiceOk c := by
  cases c with
  | jnull => rfl
  | jbool b => rfl
  | jnum m e => rfl
  | jstr s => rfl
  | jarr xs => rfl
  | jobj fs =>
    unfold processChoice choiceOk
    rcases hd : jsGet (.jobj fs) "delta".data with _ | d
    · simp [hd]
    · simp only [hd]
      cases d with
      | jnull => rfl
      | jbool b => exact processChoiceTools_ok _ _
      | jnum m e => exact processChoiceTools_ok _ _
      | jstr s => exact processChoiceTools_ok _ _
      | jarr xs => exact processChoiceTools_ok _ _
      | jobj gs => exact processChoiceTools_ok _ _

theorem processChoices_ok (cfg : Bool) (xs : List JSValue) :
    ∀ st, (processChoices cfg xs st).2.2 = choicesOkAll xs := by
  induction xs with
  | nil => intro st; simp [processChoices, choicesOkAll]
  | cons x rest ih =>
    intro st
    rcases hx : processChoice cfg x st with ⟨evs, st1, ok⟩
    have hok : ok = choiceOk x := by
      have := processChoice_ok cfg x st
      rw [hx] at this
      exact this
    cases ok with
    | false =>
      simp [processChoices, hx, choicesOkAll, ← hok]
    | true =>
      simp [processChoices, hx, choicesOkAll, ← hok, ih st1]

theorem processDelta_ok (cfg : Bool) (chunk : JSValue) (st : DecoderState) :
    (processDelta cfg chunk st).2.2 = deltaOk chunk := by
  cases chunk with
  | jnull => rfl
  | jbool b => rfl
  | jnum m e => rfl
  | jstr s => rfl
  | jarr xs => rfl
  | jobj fs =>
    unfold processDelta deltaOk
    rcases hc : jsGet (.jobj fs) "choices".data with _ | cv
    · simp [hc]
    · simp only [hc]
      rcases hi : iterElems cv with _ | xs
      · simp [hi]
      · simp [hi, processChoices_ok]

theorem textPayloads_append (a b : List SSEEvent) :
    textPayloads (a ++ b) = textPayloads a ++ textPayloads b := by
  simp [textPayloads, List.filterMap_append]

theorem tryEmit_texts (idx : Option JSValue) (st : DecoderState) :
    textPayloads (tryEmitBufferedToolCall idx st).1 = [] := by
  unfold tryEmitBufferedToolCall
  rcases hb : alGet st.toolCallBuffers idx with _ | buf
  · rfl
  · simp only [hb]
    rcases hn : buf.name with _ | nm
    · rfl
    · simp only [hn]
      by_cases ht : truthyV nm = false
      · simp only [ht, if_true, ite_true]; rfl
      · simp only [ht, if_false, ite_false]
        rcases hp : tryParseJSONObject buf.args with _ | fields
        · simp only [hp]; rfl
        · simp only [hp]
          rfl

theorem flushBuffers_texts (ks : List (Option JSValue)) :
    ∀ st, textPayloads (flushBuffers ks st).1 = [] := by
  induction ks with
  | nil => intro st; rfl
  | cons k ks ih =>
    intro st
    simp [flushBuffers, textPayloads_append, tryEmit_texts,
      ih (tryEmitBufferedToolCall k st).2]

theorem processToolCall_texts (tc : JSValue) (st : DecoderState) (r : List SSEEvent × DecoderState)
    (h : processToolCall tc st = some r) : textPayloads r.1 = [] := by
  cases tc with
  | jnull => rw [processToolCall_jnull] at h; exact Option.noConfusion h
  | jbool b =>
    unfold processToolCall at h
    by_cases hc : setMem st.completedToolCallIndices (jsGet (.jbool b) "index".data) <;>
      simp [hc] at h <;> subst h
    · rfl
    · exact tryEmit_texts _ _
  | jnum m e =>
    unfold processToolCall at h
    by_cases hc : setMem st.completedToolCallIndices (jsGet (.jnum m e) "index".data) <;>
      simp [hc] at h <;> subst h
    · rfl
    · exact tryEmit_texts _ _
  | jstr s =>
    unfold processToolCall at h
    by_cases hc : setMem st.completedToolCallIndices (jsGet (.jstr s) "index".data) <;>
      simp [hc] at h <;> subst h
    · rfl
    · exact tryEmit_texts _ _
  | jarr xs =>
    unfold processToolCall at h
    by_cases hc : setMem st.completedToolCallIndices (jsGet (.jarr xs) "index".data) <;>
      simp [hc] at h <;> subst h
    · rfl
    · exact tryEmit_texts _ _
  | jobj fs =>
    unfold processToolCall at h
    by_cases hc : setMem st.completedToolCallIndices (jsGet (.jobj fs) "index".data) <;>
      simp [hc] at h <;> subst h
    · rfl
    · exact tryEmit_texts _ _

theorem processToolCalls_texts (xs : List JSValue) :
    ∀ st, textPayloads (processToolCalls xs st).1 = [] := by
  induction xs with
  | nil => intro st; rfl
  | cons tc rest ih =>
    intro st
    rcases htc : processToolCall tc st with _ | ⟨evs, st1⟩
    · simp [processToolCalls, htc, textPayloads]
    · have h1 := processToolCall_texts tc st (evs, st1) htc
      simp only [processToolCalls, htc]
      simp [textPayloads_append, h1, ih st1]

theorem reasoningStep_off (delta : JSValue) (st : DecoderState) :
    reasoningStep false delta st = ([], st) := by
  simp [reasoningStep]

theorem contentStep_texts (delta : JSValue) (st : DecoderState) :
    textPayloads (contentStep false delta st).1 =
      (match jsGet delta "content".data with
       | some cv => if truthyV cv then [cv] else []
       | none => []) := by
  unfold contentStep
  rcases hc : jsGet delta "content".data with _ | cv
  · simp only [reasoningStep_off]; rfl
  · by_cases hcv : truthyV cv
    · simp only [hcv, if_true, ite_true]; rfl
    · simp only [hcv, Bool.false_eq_true, if_false, ite_false, reasoningStep_off]; rfl

theorem processChoiceTools_texts (tcv : Option JSValue) (r1 : List SSEEvent × DecoderState) :
    textPayloads (processChoiceTools tcv r1).1 = textPayloads r1.1 := by
  rcases tcv with _ | tv
  · rfl
  · simp only [processChoiceTools]
    by_cases htr : truthyV tv
    · simp only [htr, if_true, ite_true]
      rcases hi : iterElems tv with _ | elems
      · rfl
      · simp [textPayloads_append, processToolCalls_texts]
    · simp [htr]

theorem processChoice_texts (c : JSValue) (st : DecoderState) :
    textPayloads (processChoice false c st).1 = choiceText c := by
  cases c with
  | jnull => rfl
  | jbool b => rfl
  | jnum m e => rfl
  | jstr s => rfl
  | jarr xs => rfl
  | jobj fs =>
    unfold processChoice choiceText
    rcases hd : jsGet (.jobj fs) "delta".data with _ | d
    · rfl
    · simp only [hd]
      cases d with
      | jnull => rfl
      | jbool b => rw [processChoiceTools_texts, contentStep_texts]
      | jnum m e => rw [processChoiceTools_texts, contentStep_texts]
      | jstr s => rw [processChoiceTools_texts, contentStep_texts]
      | jarr xs => rw [processChoiceTools_texts, contentStep_texts]
      | jobj gs => rw [processChoiceTools_texts, contentStep_texts]

theorem processChoices_texts (xs : List JSValue) :
    ∀ st, textPayloads (processChoices false xs st).1 = specTexts xs := by
  induction xs with
  | nil => intro st; rfl
  | cons x rest ih =>
    intro st
    rcases hx : processChoice false x st with ⟨evs, st1, ok⟩
    have hok : ok = choiceOk x := by
      have := processChoice_ok false x st
      rw [hx] at this
      exact this
    have htx : textPayloads evs = choiceText x := by
      have := processChoice_texts x st
      rw [hx] at this
      exact this
    cases ok with
    | false =>
      simp [processChoices, hx, specTexts, ← hok, htx]
    | true =>
      simp [processChoices, hx, specTexts, ← hok, htx, textPayloads_append, ih st1]

theorem processDelta_texts (chunk : JSValue) (st : DecoderState) :
    textPayloads (processDelta false chunk st).1 = chunkTexts chunk := by
  cases chunk with
  | jnull => rfl
  | jbool b => rfl
  | jnum m e => rfl
  | jstr s => rfl
  | jarr xs => rfl
  | jobj fs =>
    unfold processDelta chunkTexts
    rcases hc : jsGet (.jobj fs) "choices".data with _ | cv
    · rfl
    · simp only [hc]
      rcases hi : iterElems cv with _ | xs
      · rfl
      · simp [processChoices_texts]

theorem processLine_texts (st : StreamState) (l : List Char) :
    textPayloads (processLine false st l).events = textPayloads st.events ++ lineTexts l := by
  rw [processLine_eq]
  unfold lineTexts
  rcases hc : classifyLine l with _ | _ | _ | d | _
  · simp
  · simp
  · simp
  · unfold dataStep
    rcases hp : jsonParse d with _ | chunk
    · simp [hp]
    · simp [hp, textPayloads_append, processDelta_texts]
  · simp [termStep, textPayloads_append, flushBuffers_texts]

theorem lineTexts_term (l : List Char) (h : isTermLine l = true) : lineTexts l = [] := by
  unfold lineTexts
  unfold isTermLine at h
  simp only [decide_eq_true_eq] at h
  rw [h]

/-- Amended claim C3. -/
theorem spec_C3 :
    (∀ (st : DecoderState) (xs : List JSValue),
      textPayloads (processChoices false xs st).1 = specTexts xs) ∧
    (∀ (p : StreamState) (ls : List (List Char)), p.doneSeen = false →
      textPayloads (procLines false p ls).events =
        textPayloads p.events ++
          ((ls.takeWhile (fun l => !isTermLine l)).map lineTexts).flatten) := by
  refine ⟨fun st xs => processChoices_texts xs st, ?_⟩
  intro p ls
  induction ls generalizing p with
  | nil => intro hp; simp [procLines]
  | cons l ls ih =>
    intro hp
    by_cases ht : isTermLine l
    · have hdone : (processLine false p l).doneSeen = true := by
        rw [processLine_doneSeen]; simp [ht]
      rw [procLines_cons]
      simp only [hdone, if_true, ite_true]
      rw [processLine_texts, lineTexts_term l ht]
      simp [ht]
    · have hnd : (processLine false p l).doneSeen = false := by
        rw [processLine_doneSeen]; simp [hp, ht]
      rw [procLines_cons]
      simp only [hnd, Bool.false_eq_true, if_false, ite_false]
      rw [ih _ hnd, processLine_texts]
      simp [ht, List.append_assoc]

theorem spec_C3_witness :
    textPayloads (procLines false {}
        ["data: \x7b\"choices\":[\x7b\"delta\":\x7b\"content\":\"hi\"\x7d\x7d]\x7d".data]).events =
      textPayloads ({} : StreamState).events ++
        (((["data: \x7b\"choices\":[\x7b\"delta\":\x7b\"content\":\"hi\"\x7d\x7d]\x7d".data]).takeWhile
            (fun l => !isTermLine l)).map lineTexts).flatten :=
  spec_C3.2 {} _ rfl

/-- Counterexample to claim C3 as stated. -/
theorem spec_C3_counterexample :
    (processStreamingResponse false
      [strBytes "data: \x7b\"choices\":[\x7b\"delta\":\x7b\"content\":\"\"\x7d\x7d]\x7d\ndata: [DONE]\n"]).events
        = [] ∧
    (processStreamingResponse false
      [strBytes "data: \x7b\"choices\":[\x7b\"delta\":\x7b\"content\":\"\"\x7d\x7d]\x7d\ndata: [DONE]\n"]).emittedAny
        = true := by
  exact ⟨by decide, by decide⟩

theorem setMem_append (s t : List (Option JSValue)) (k : Option JSValue) :
    setMem (s ++ t) k = (setMem s k || setMem t k) := by
  induction s with
  | nil => simp [setMem]
  | cons a s ih => simp [setMem, ih, Bool.or_assoc]

theorem setMem_setAdd (s : List (Option JSValue)) (k k' : Option JSValue)
    (h : setMem s k = true) : setMem (setAdd s k') k = true := by
  unfold setAdd
  split
  · exact h
  · simp [setMem_append, h]

theorem alGet_alDel_none {V : Type} (m : List (Option JSValue × V)) (k k' : Option JSValue)
    (h : alGet m k = none) : alGet (alDel m k') k = none := by
  induction m with
  | nil => rfl
  | cons p m ih =>
    rcases p with ⟨a, v⟩
    simp only [alGet] at h
    by_cases hak : a = k
    · simp [hak] at h
    · simp only [hak, Bool.false_eq_true, if_false, ite_false] at h
      unfold alDel
      by_cases hak' : a = k'
      · simp only [hak', if_true, ite_true]
        exact h
      · simp only [hak', Bool.false_eq_true, if_false, ite_false, alGet, hak]
        exact ih h

theorem alGet_alSet_ne {V : Type} (m : List (Option JSValue × V)) (k k' : Option JSValue)
    (v : V) (hne : k' ≠ k) : alGet (alSet m k' v) k = alGet m k := by
  induction m with
  | nil => simp [alSet, alGet, hne]
  | cons p m ih =>
    rcases p with ⟨a, w⟩
    unfold alSet
    by_cases hak' : a = k'
    · subst hak'
      simp [alGet, hne]
    · simp only [hak', Bool.false_eq_true, if_false, ite_false, alGet]
      by_cases hak : a = k
      · simp [hak]
      · simp [hak, ih]

theorem tryEmit_preserves (idx k : Option JSValue) (ds : DecoderState)
    (h : doneIdx idx ds) : doneIdx idx (tryEmitBufferedToolCall k ds).2 := by
  unfold tryEmitBufferedToolCall
  rcases hb : alGet ds.toolCallBuffers k with _ | buf
  · simp only [hb]; exact h
  · simp only [hb]
    rcases hn : buf.name with _ | nm
    · simp only [hn]; exact h
    · simp only [hn]
      by_cases ht : truthyV nm = false
      · simp only [ht, if_true, ite_true]; exact h
      · simp only [ht, if_false, ite_false]
        rcases hp : tryParseJSONObject buf.args with _ | fields
        · simp only [hp]; exact h
        · simp only [hp]
          exact ⟨setMem_setAdd _ _ _ h.1, alGet_alDel_none _ _ _ h.2⟩

theorem processToolCall_preserves (idx : Option JSValue) (tc : JSValue) (ds : DecoderState)
    (r : List SSEEvent × DecoderState) (hr : processToolCall tc ds = some r)
    (h : doneIdx idx ds) : doneIdx idx r.2 := by
  have hne : tc ≠ .jnull := by
    intro he; subst he; rw [processToolCall_jnull] at hr; exact Option.noConfusion hr
  rw [processToolCall_eq tc ds hne] at hr
  by_cases hm : setMem ds.completedToolCallIndices (jsGet tc "index".data)
  · simp only [hm, if_true, ite_true, Option.some_inj] at hr
    rw [← hr]
    exact h
  · simp only [hm, Bool.false_eq_true, if_false, ite_false, Option.some_inj] at hr
    have hni : jsGet tc "index".data ≠ idx := by
      intro he; rw [he] at hm; exact hm (by simpa using h.1)
    have happ : doneIdx idx (applyToolFragment tc ds) := by
      refine ⟨h.1, ?_⟩
      unfold applyToolFragment
      simpa using (alGet_alSet_ne ds.toolCallBuffers idx (jsGet tc "index".data) _ hni).trans h.2
    have := tryEmit_preserves idx (jsGet tc "index".data) (applyToolFragment tc ds) happ
    rw [← hr]
    exact this

theorem processToolCalls_preserves (idx : Option JSValue) (xs : List JSValue) :
    ∀ ds, doneIdx idx ds → doneIdx idx (processToolCalls xs ds).2.1 := by
  induction xs with
  | nil => intro ds h; exact h
  | cons tc rest ih =>
    intro ds h
    rcases htc : processToolCall tc ds with _ | ⟨evs, ds1⟩
    · simpa [processToolCalls, htc] using h
    · have h1 := processToolCall_preserves idx tc ds (evs, ds1) htc h
      simpa [processToolCalls, htc] using ih ds1 h1

theorem reasoningStep_preserves (idx : Option JSValue) (cfg : Bool) (delta : JSValue)
    (ds : DecoderState) (h : doneIdx idx ds) : doneIdx idx (reasoningStep cfg delta ds).2 := by
  simp only [reasoningStep]
  split
  · exact ⟨h.1, h.2⟩
  · exact h

theorem contentStep_preserves (idx : Option JSValue) (cfg : Bool) (delta : JSValue)
    (ds : DecoderState) (h : doneIdx idx ds) : doneIdx idx (contentStep cfg delta ds).2 := by
  unfold contentStep
  rcases jsGet delta "content".data with _ | cv
  · exact reasoningStep_preserves idx cfg delta ds h
  · by_cases hcv : truthyV cv
    · simp only [hcv, if_true, ite_true]
      exact ⟨h.1, h.2⟩
    · simp only [hcv, Bool.false_eq_true, if_false, ite_false]
      exact reasoningStep_preserves idx cfg delta ds h

theorem processChoiceTools_preserves (idx : Option JSValue) (tcv : Option JSValue)
    (r1 : List SSEEvent × DecoderState) (h : doneIdx idx r1.2) :
    doneIdx idx (processChoiceTools tcv r1).2.1 := by
  rcases tcv with _ | tv
  · exact h
  · simp only [processChoiceTools]
    by_cases htr : truthyV tv
    · simp only [htr, if_true, ite_true]
      rcases hi : iterElems tv with _ | elems
      · exact h
      · exact processToolCalls_preserves idx elems r1.2 h
    · simp only [htr, Bool.false_eq_true, if_false, ite_false]
      exact h

theorem processChoice_preserves (idx : Option JSValue) (cfg : Bool) (c : JSValue)
    (ds : DecoderState) (h : doneIdx idx ds) : doneIdx idx (processChoice cfg c ds).2.1 := by
  cases c with
  | jnull => exact h
  | jbool b => exact h
  | jnum m e => exact h
  | jstr s => exact h
  | jarr xs => exact h
  | jobj fs =>
    unfold processChoice
    rcases hd : jsGet (.jobj fs) "delta".data with _ | d
    · exact h
    · cases d with
      | jnull => exact h
      | jbool b => exact processChoiceTools_preserves idx _ _ (contentStep_preserves idx cfg _ ds h)
      | jnum m e => exact processChoiceTools_preserves idx _ _ (contentStep_preserves idx cfg _ ds h)
      | jstr s => exact processChoiceTools_preserves idx _ _ (contentStep_preserves idx cfg _ ds h)
      | jarr xs => exact processChoiceTools_preserves idx _ _ (contentStep_preserves idx cfg _ ds h)
      | jobj gs => exact processChoiceTools_preserves idx _ _ (contentStep_preserves idx cfg _ ds h)

theorem processChoices_preserves (idx : Option JSValue) (cfg : Bool) (xs : List JSValue) :
    ∀ ds, doneIdx idx ds → doneIdx idx (processChoices cfg xs ds).2.1 := by
  induction xs with
  | nil => intro ds h; exact h
  | cons x rest ih =>
    intro ds h
    rcases hx : processChoice cfg x ds with ⟨evs, ds1, ok⟩
    have h1 : doneIdx idx ds1 := by
      have := processChoice_preserves idx cfg x ds h
      rw [hx] at this
      exact this
    cases ok with
    | false => simpa [processChoices, hx] using h1
    | true => simpa [processChoices, hx] using ih ds1 h1

theorem processDelta_preserves (idx : Option JSValue) (cfg : Bool) (chunk : JSValue)
    (ds : DecoderState) (h : doneIdx idx ds) : doneIdx idx (processDelta cfg chunk ds).2.1 := by
  cases chunk with
  | jnull => exact h
  | jbool b => exact h
  | jnum m e => exact h
  | jstr s => exact h
  | jarr xs => exact h
  | jobj fs =>
    unfold processDelta
    rcases hc : jsGet (.jobj fs) "choices".data with _ | cv
    · simp only [hc]; exact h
    · simp only [hc]
      rcases hi : iterElems cv with _ | xs
      · simp only [hi]; exact h
      · simp only [hi]; exact processChoices_preserves idx cfg xs ds h

theorem flushBuffers_preserves (idx : Option JSValue) (ks : List (Option JSValue)) :
    ∀ ds, doneIdx idx ds → doneIdx idx (flushBuffers ks ds).2 := by
  induction ks with
  | nil => intro ds h; exact h
  | cons k ks ih =>
    intro ds h
    simpa [flushBuffers] using ih _ (tryEmit_preserves idx k ds h)

theorem processLine_preserves (idx : Option JSValue) (cfg : Bool) (p : StreamState)
    (l : List Char) (h : doneIdx idx p.ds) : doneIdx idx (processLine cfg p l).ds := by
  rw [processLine_eq]
  rcases classifyLine l with _ | _ | _ | d | _
  · exact h
  · exact h
  · exact h
  · unfold dataStep
    rcases hp : jsonParse d with _ | chunk
    · simp only [hp]; exact h
    · simp only [hp]; exact processDelta_preserves idx cfg chunk p.ds h
  · exact flushBuffers_preserves idx _ p.ds h

theorem procLines_preserves (idx : Option JSValue) (cfg : Bool) (ls : List (List Char)) :
    ∀ p : StreamState, doneIdx idx p.ds → doneIdx idx (procLines cfg p ls).ds := by
  induction ls with
  | nil => intro p h; exact h
  | cons l ls ih =>
    intro p h
    rw [procLines_cons]
    by_cases hd : (processLine cfg p l).doneSeen
    · simp only [hd, if_true, ite_true]
      exact processLine_preserves idx cfg p l h
    · simp only [hd, Bool.false_eq_true, if_false, ite_false]
      exact ih _ (processLine_preserves idx cfg p l h)

/-- Spec claim C5. -/
theorem spec_C5 (idx : Option JSValue) :
    (∀ (st : DecoderState) (tc : JSValue), setMem st.completedToolCallIndices idx = true →
      tc ≠ .jnull → jsGet tc "index".data = idx → processToolCall tc st = some ([], st)) ∧
    (∀ (cfg : Bool) (p : StreamState) (l : List Char),
      doneIdx idx p.ds → doneIdx idx (processLine cfg p l).ds) ∧
    (∀ (cfg : Bool) (p : StreamState) (ls : List (List Char)),
      doneIdx idx p.ds → doneIdx idx (procLines cfg p ls).ds) := by
  refine ⟨?_, ?_, ?_⟩
  · intro st tc hmem hne hidx
    rw [processToolCall_eq tc st hne, hidx, hmem]
    simp
  · intro cfg p l h
    exact processLine_preserves idx cfg p l h
  · intro cfg p ls h
    exact procLines_preserves idx cfg ls p h

theorem spec_C5_witness :
    processToolCall (.jobj [("index".data, .jnum 0 0), ("id".data, .jstr "z".data)])
        ⟨[], [some (.jnum 0 0)], 3, false⟩ =
      some ([], ⟨[], [some (.jnum 0 0)], 3, false⟩) ∧
    doneIdx (some (.jnum 0 0))
      (procLines false ⟨⟨[], [some (.jnum 0 0)], 3, false⟩, false, false, []⟩
        ["data: \x7b\"choices\":[\x7b\"delta\":\x7b\"tool_calls\":[\x7b\"index\":0,\"function\":\x7b\"name\":\"f\",\"arguments\":\"\x7b\x7d\"\x7d\x7d]\x7d\x7d]\x7d".data]).ds := by
  constructor
  · exact (spec_C5 (some (.jnum 0 0))).1 ⟨[], [some (.jnum 0 0)], 3, false⟩
      (.jobj [("index".data, .jnum 0 0), ("id".data, .jstr "z".data)])
      (by decide) (by decide) (by decide)
  · exact (spec_C5 (some (.jnum 0 0))).2.2 false
      ⟨⟨[], [some (.jnum 0 0)], 3, false⟩, false, false, []⟩ _ ⟨by decide, by decide⟩

theorem text_good (v : JSValue) : goodToolArgs (SSEEvent.text v) := by
  intro id nm args h
  exact SSEEvent.noConfusion h

theorem tryEmit_noop (idx : Option JSValue) (ds : DecoderState) (buf : BufferedToolCall)
    (hb : alGet ds.toolCallBuffers idx = some buf)
    (h : truthy buf.name = false ∨ tryParseJSONObject buf.args = none) :
    tryEmitBufferedToolCall idx ds = ([], ds) := by
  unfold tryEmitBufferedToolCall
  rw [hb]
  rcases hn : buf.name with _ | nm
  · simp only [hn]
  · simp only [hn]
    rcases h with h | h
    · rw [hn] at h
      simp only [truthy] at h
      simp [h]
    · by_cases ht : truthyV nm = false
      · simp [ht]
      · simp [ht, h]

theorem tryEmit_good (k : Option JSValue) (ds : DecoderState) :
    ∀ ev ∈ (tryEmitBufferedToolCall k ds).1, goodToolArgs ev := by
  unfold tryEmitBufferedToolCall
  rcases hb : alGet ds.toolCallBuffers k with _ | buf
  · simp
  · simp only [hb]
    rcases hn : buf.name with _ | nm
    · simp
    · simp only [hn]
      by_cases ht : truthyV nm = false
      · simp [ht]
      · simp only [ht, Bool.false_eq_true, if_false, ite_false]
        rcases hp : tryParseJSONObject buf.args with _ | fields
        · simp [hp]
        · simp only [hp]
          intro ev hev
          simp at hev
          subst hev
          intro id nm' args h
          cases h
          exact ⟨buf.args, hp⟩

theorem processToolCall_good (tc : JSValue) (ds : DecoderState)
    (r : List SSEEvent × DecoderState) (hr : processToolCall tc ds = some r) :
    ∀ ev ∈ r.1, goodToolArgs ev := by
  have hne : tc ≠ .jnull := by
    intro he; subst he; rw [processToolCall_jnull] at hr; exact Option.noConfusion hr
  rw [processToolCall_eq tc ds hne] at hr
  by_cases hm : setMem ds.completedToolCallIndices (jsGet tc "index".data)
  · simp only [hm, if_true, ite_true, Option.some_inj] at hr
    rw [← hr]
    simp
  · simp only [hm, Bool.false_eq_true, if_false, ite_false, Option.some_inj] at hr
    rw [← hr]
    exact tryEmit_good _ _

theorem processToolCalls_good (xs : List JSValue) :
    ∀ ds, ∀ ev ∈ (processToolCalls xs ds).1, goodToolArgs ev := by
  induction xs with
  | nil => intro ds ev hev; simp [processToolCalls] at hev
  | cons tc rest ih =>
    intro ds ev hev
    rcases htc : processToolCall tc ds with _ | ⟨evs, ds1⟩
    · simp [processToolCalls, htc] at hev
    · simp only [processToolCalls, htc, List.mem_append] at hev
      rcases hev with hev | hev
      · exact processToolCall_good tc ds (evs, ds1) htc ev hev
      · exact ih ds1 ev hev

theorem reasoningStep_good (cfg : Bool) (delta : JSValue) (ds : DecoderState) :
    ∀ ev ∈ (reasoningStep cfg delta ds).1, goodToolArgs ev := by
  simp only [reasoningStep]
  split
  · intro ev hev; simp only [List.mem_singleton] at hev; subst hev; exact text_good _
  · simp

theorem contentStep_good (cfg : Bool) (delta : JSValue) (ds : DecoderState) :
    ∀ ev ∈ (contentStep cfg delta ds).1, goodToolArgs ev := by
  unfold contentStep
  rcases hc : jsGet delta "content".data with _ | cv
  · exact reasoningStep_good cfg delta ds
  · by_cases hcv : truthyV cv
    · simp only [hcv, if_true, ite_true]
      intro ev hev; simp only [List.mem_singleton] at hev; subst hev; exact text_good _
    · simp only [hcv, Bool.false_eq_true, if_false, ite_false]
      exact reasoningStep_good cfg delta ds

theorem processChoiceTools_good (tcv : Option JSValue) (r1 : List SSEEvent × DecoderState)
    (h1 : ∀ ev ∈ r1.1, goodToolArgs ev) :
    ∀ ev ∈ (processChoiceTools tcv r1).1, goodToolArgs ev := by
  rcases tcv with _ | tv
  · exact h1
  · simp only [processChoiceTools]
    by_cases htr : truthyV tv
    · simp only [htr, if_true, ite_true]
      rcases hi : iterElems tv with _ | elems
      · exact h1
      · intro ev hev
        simp only [List.mem_append] at hev
        rcases hev with hev | hev
        · exact h1 ev hev
        · exact processToolCalls_good elems r1.2 ev hev
    · simp only [htr, Bool.false_eq_true, if_false, ite_false]
      exact h1

theorem processChoice_good (cfg : Bool) (c : JSValue) (ds : DecoderState) :
    ∀ ev ∈ (processChoice cfg c ds).1, goodToolArgs ev := by
  cases c with
  | jnull => simp [processChoice]
  | jbool b => simp [processChoice, jsGet]
  | jnum m e => simp [processChoice, jsGet]
  | jstr s => simp [processChoice, jsGet]
  | jarr xs => simp [processChoice, jsGet]
  | jobj fs =>
    unfold processChoice
    rcases hd : jsGet (.jobj fs) "delta".data with _ | d
    · simp
    · simp only [hd]
      cases d with
      | jnull => simp
      | jbool b => exact processChoiceTools_good _ _ (contentStep_good cfg _ ds)
      | jnum m e => exact processChoiceTools_good _ _ (contentStep_good cfg _ ds)
      | jstr s => exact processChoiceTools_good _ _ (contentStep_good cfg _ ds)
      | jarr xs => exact processChoiceTools_good _ _ (contentStep_good cfg _ ds)
      | jobj gs => exact processChoiceTools_good _ _ (contentStep_good cfg _ ds)

theorem processChoices_good (cfg : Bool) (xs : List JSValue) :
    ∀ ds, ∀ ev ∈ (processChoices cfg xs ds).1, goodToolArgs ev := by
  induction xs with
  | nil => intro ds ev hev; simp [processChoices] at hev
  | cons x rest ih =>
    intro ds ev hev
    rcases hx : processChoice cfg x ds with ⟨evs, ds1, ok⟩
    have hg : ∀ ev ∈ evs, goodToolArgs ev := by
      have := processChoice_good cfg x ds
      rw [hx] at this
      exact this
    cases ok with
    | false =>
      simp only [processChoices, hx] at hev
      exact hg ev hev
    | true =>
      simp only [processChoices, hx, List.mem_append] at hev
      rcases hev with hev | hev
      · exact hg ev hev
      · exact ih ds1 ev hev

theorem processDelta_good (cfg : Bool) (chunk : JSValue) (ds : DecoderState) :
    ∀ ev ∈ (processDelta cfg chunk ds).1, goodToolArgs ev := by
  cases chunk with
  | jnull => simp [processDelta]
  | jbool b => simp [processDelta, jsGet]
  | jnum m e => simp [processDelta, jsGet]
  | jstr s => simp [processDelta, jsGet]
  | jarr xs => simp [processDelta, jsGet]
  | jobj fs =>
    unfold processDelta
    rcases hc : jsGet (.jobj fs) "choices".data with _ | cv
    · simp
    · simp only [hc]
      rcases hi : iterElems cv with _ | xs
      · simp
      · simp only [hi]
        exact processChoices_good cfg xs ds

theorem flushBuffers_good (ks : List (Option JSValue)) :
    ∀ ds, ∀ ev ∈ (flushBuffers ks ds).1, goodToolArgs ev := by
  induction ks with
  | nil => intro ds ev hev; simp [flushBuffers] at hev
  | cons k ks ih =>
    intro ds ev hev
    simp only [flushBuffers, List.mem_append] at hev
    rcases hev with hev | hev
    · exact tryEmit_good k ds ev hev
    · exact ih _ ev hev

theorem processLine_good (cfg : Bool) (st : StreamState) (l : List Char) :
    ∀ ev ∈ (processLine cfg st l).events, ev ∈ st.events ∨ goodToolArgs ev := by
  rcases hc : classifyLine l with _ | _ | _ | d | _
  · rw [processLine_nonData cfg st l (Or.inl hc)]; intro ev hev; exact Or.inl hev
  · rw [processLine_nonData cfg st l (Or.inr (Or.inl hc))]; intro ev hev; exact Or.inl hev
  · rw [processLine_nonData cfg st l (Or.inr (Or.inr hc))]; intro ev hev; exact Or.inl hev
  · have he : processLine cfg st l = dataStep cfg st d := by rw [processLine_eq, hc]
    rw [he]
    unfold dataStep
    rcases hp : jsonParse d with _ | chunk
    · simp only [hp]; intro ev hev; exact Or.inl hev
    · simp only [hp]
      intro ev hev
      simp only [List.mem_append] at hev
      rcases hev with hev | hev
      · exact Or.inl hev
      · exact Or.inr (processDelta_good cfg chunk st.ds ev hev)
  · have he : processLine cfg st l = termStep st := by rw [processLine_eq, hc]
    rw [he]
    intro ev hev
    simp only [termStep, List.mem_append] at hev
    rcases hev with hev | hev
    · exact Or.inl hev
    · exact Or.inr (flushBuffers_good _ st.ds ev hev)

theorem procLines_good (cfg : Bool) (ls : List (List Char)) :
    ∀ st : StreamState, ∀ ev ∈ (procLines cfg st ls).events, ev ∈ st.events ∨ goodToolArgs ev := by
  induction ls with
  | nil => intro st ev hev; exact Or.inl hev
  | cons l ls ih =>
    intro st ev hev
    rw [procLines_cons] at hev
    by_cases hd : (processLine cfg st l).doneSeen
    · simp only [hd, if_true, ite_true] at hev
      exact processLine_good cfg st l ev hev
    · simp only [hd, Bool.false_eq_true, if_false, ite_false] at hev
      rcases ih _ ev hev with h | h
      · exact processLine_good cfg st l ev h
      · exact Or.inr h

theorem run_good (cfg : Bool) (chunks : List (List Nat)) :
    ∀ ev ∈ (processStreamingResponse cfg chunks).events, goodToolArgs ev := by
  unfold processStreamingResponse
  have hrun : ∀ (cs : List (List Nat)) (s : PipelineState),
      (∀ ev ∈ s.ps.events, goodToolArgs ev) →
      ∀ ev ∈ (runChunks cfg s cs).ps.events, goodToolArgs ev := by
    intro cs
    induction cs with
    | nil => intro s hs ev hev; exact hs ev hev
    | cons c cs ih =>
      intro s hs ev hev
      by_cases hd : s.ps.doneSeen
      · simp only [runChunks, hd, if_true, ite_true] at hev
        exact hs ev hev
      · simp only [runChunks, hd, Bool.false_eq_true, if_false, ite_false] at hev
        refine ih _ ?_ ev hev
        intro ev' hev'
        unfold stepChunk at hev'
        rcases procLines_good cfg _ s.ps ev' hev' with h | h
        · exact hs ev' h
        · exact h
  intro ev hev
  unfold finishStream at hev
  split at hev
  · rcases processLine_good cfg _ _ ev hev with h | h
    · have := hrun chunks {} (by simp) ev h
      exact this
    · exact h
  · exact hrun chunks {} (by simp) ev hev

/-- Spec claim C6. -/
theorem spec_C6 :
    (∀ (cfg : Bool) (st : StreamState) (l : List Char), classifyLine l = .term →
      processLine cfg st l = termStep st) ∧
    (∀ (idx : Option JSValue) (ds : DecoderState) (buf : BufferedToolCall),
      alGet ds.toolCallBuffers idx = some buf →
      truthy buf.name = false ∨ tryParseJSONObject buf.args = none →
      tryEmitBufferedToolCall idx ds = ([], ds)) ∧
    (∀ (cfg : Bool) (chunks : List (List Nat)),
      ∀ ev ∈ (processStreamingResponse cfg chunks).events, goodToolArgs ev) := by
  refine ⟨?_, ?_, ?_⟩
  · intro cfg st l hc
    rw [processLine_eq, hc]
  · intro idx ds buf hb h
    exact tryEmit_noop idx ds buf hb h
  · intro cfg chunks
    exact run_good cfg chunks

theorem spec_C6_witness :
    (processLine false
        ⟨⟨[(some (.jnum 0 0), ⟨none, some (.jstr "f".data), "\x7b".data⟩)], [], 0, false⟩,
          true, false, []⟩ "data: [DONE]".data =
      termStep ⟨⟨[(some (.jnum 0 0), ⟨none, some (.jstr "f".data), "\x7b".data⟩)], [], 0, false⟩,
          true, false, []⟩) ∧
    tryEmitBufferedToolCall (some (.jnum 0 0))
        ⟨[(some (.jnum 0 0), ⟨none, some (.jstr "f".data), "\x7b".data⟩)], [], 0, false⟩ =
      ([], ⟨[(some (.jnum 0 0), ⟨none, some (.jstr "f".data), "\x7b".data⟩)], [], 0, false⟩) ∧
    goodToolArgs (SSEEvent.toolCall (.jstr (generateCallId 0)) (.jstr "g".data)
      [("x".data, .jnum 1 0)]) := by
  refine ⟨?_, ?_, ?_⟩
  · exact spec_C6.1 false _ "data: [DONE]".data (by decide)
  · exact spec_C6.2.1 (some (.jnum 0 0)) _ ⟨none, some (.jstr "f".data), "\x7b".data⟩
      (by decide) (Or.inr (by decide))
  · exact spec_C6.2.2 false
      [strBytes "data: \x7b\"choices\":[\x7b\"delta\":\x7b\"tool_calls\":[\x7b\"index\":0,\"function\":\x7b\"name\":\"f\",\"arguments\":\"\x7b\\\"x\\\":\"\x7d\x7d]\x7d\x7d]\x7d\n",
       strBytes "data: \x7b\"choices\":[\x7b\"delta\":\x7b\"tool_calls\":[\x7b\"index\":0,\"function\":\x7b\"name\":\"g\",\"arguments\":\"1\x7d\"\x7d\x7d]\x7d\x7d]\x7d\n",
       strBytes "data: [DONE]\n"]
      (SSEEvent.toolCall (.jstr (generateCallId 0)) (.jstr "g".data) [("x".data, .jnum 1 0)])
      (by decide)

theorem feedAux_acc (bs : List Nat) :
    ∀ (st : Utf8State) (acc : List Char),
      feedAux st acc bs = (acc ++ (feedAux st [] bs).1, (feedAux st [] bs).2) := by
  induction bs with
  | nil => intro st acc; simp [feedAux]
  | cons b bs ih =>
    intro st acc
    simp only [feedAux]
    rw [ih (utf8Step st b).2 (acc ++ (utf8Step st b).1),
      ih (utf8Step st b).2 ([] ++ (utf8Step st b).1)]
    simp

theorem feedAux_append (a : List Nat) :
    ∀ (b : List Nat) (st : Utf8State) (acc : List Char),
      feedAux st acc (a ++ b) = feedAux (feedAux st acc a).2 (feedAux st acc a).1 b := by
  induction a with
  | nil => intro b st acc; rfl
  | cons x a ih =>
    intro b st acc
    simp only [List.cons_append, feedAux]
    exact ih b _ _

theorem feedBytes_append (st : Utf8State) (a b : List Nat) :
    feedBytes st (a ++ b) =
      ((feedBytes st a).1 ++ (feedBytes (feedBytes st a).2 b).1,
        (feedBytes (feedBytes st a).2 b).2) := by
  unfold feedBytes
  rw [feedAux_append a b st []]
  exact feedAux_acc b (feedAux st [] a).2 (feedAux st [] a).1

theorem splitAux_append (x : List Char) :
    ∀ (cur : List Char) (y : List Char),
      splitAux cur (x ++ y) =
        ((splitAux cur x).1 ++ (splitAux ((splitAux cur x).2.reverse) y).1,
          (splitAux ((splitAux cur x).2.reverse) y).2) := by
  induction x with
  | nil => intro cur y; simp [splitAux]
  | cons c x ih =>
    intro cur y
    by_cases hc : c = '\n'
    · subst hc
      simp only [List.cons_append, splitAux, if_true, ite_true, List.append_eq]
      rw [ih [] y]
    · simp only [List.cons_append, splitAux, hc, if_false, ite_false]
      exact ih (c :: cur) y

theorem splitAux_residual_noNL (s : List Char) :
    ∀ cur : List Char, '\n' ∉ cur → '\n' ∉ (splitAux cur s).2 := by
  induction s with
  | nil =>
    intro cur h
    simp only [splitAux]
    simpa using h
  | cons c s ih =>
    intro cur h
    by_cases hc : c = '\n'
    · subst hc
      simp only [splitAux, if_true, ite_true]
      exact ih [] (by simp)
    · simp only [splitAux, hc, if_false, ite_false]
      exact ih (c :: cur) (by simp [h, Ne.symm hc])

theorem splitAux_noNL_gen (s : List Char) :
    ∀ cur, '\n' ∉ s → splitAux cur s = ([], cur.reverse ++ s) := by
  induction s with
  | nil => intro cur _; simp [splitAux]
  | cons c s ih =>
    intro cur hs
    have hc : c ≠ '\n' := by
      intro he; exact hs (by simp [he])
    simp only [splitAux, hc, if_false, ite_false]
    rw [ih (c :: cur) (by intro hm; exact hs (by simp [hm]))]
    simp

theorem splitAux_noNL (s : List Char) (h : '\n' ∉ s) : splitAux [] s = ([], s) := by
  simpa using splitAux_noNL_gen s [] h

theorem splitAux_prepend_noNL (r : List Char) :
    ∀ (cur y : List Char), '\n' ∉ r →
      splitAux cur (r ++ y) = splitAux (r.reverse ++ cur) y := by
  induction r with
  | nil => intro cur y _; rfl
  | cons c r ih =>
    intro cur y h
    have hc : c ≠ '\n' := fun he => h (by simp [he])
    simp only [List.cons_append, splitAux, hc, if_false, ite_false, List.append_eq]
    rw [ih (c :: cur) y (fun hm => h (by simp [hm]))]
    simp

theorem splitLines_append (x y : List Char) :
    splitLines (x ++ y) =
      ((splitLines x).1 ++ (splitLines ((splitLines x).2 ++ y)).1,
        (splitLines ((splitLines x).2 ++ y)).2) := by
  unfold splitLines
  rw [splitAux_append x [] y]
  have hr : '\n' ∉ (splitAux [] x).2 := splitAux_residual_noNL x [] (by simp)
  rw [splitAux_prepend_noNL (splitAux [] x).2 [] y hr]
  simp

theorem stepChunk_append (cfg : Bool) (s : PipelineState) (a b : List Nat)
    (hd : s.ps.doneSeen = false) :
    obsEq (stepChunk cfg s (a ++ b))
      (if (stepChunk cfg s a).ps.doneSeen = true then stepChunk cfg s a
       else stepChunk cfg (stepChunk cfg s a) b) := by
  have hfb := feedBytes_append s.dec a b
  have h1 : stepChunk cfg s (a ++ b) =
      { dec := (feedBytes (feedBytes s.dec a).2 b).2,
        lineBuf := (splitLines ((splitLines (s.lineBuf ++ (feedBytes s.dec a).1)).2 ++
          (feedBytes (feedBytes s.dec a).2 b).1)).2,
        ps := procLines cfg s.ps
          ((splitLines (s.lineBuf ++ (feedBytes s.dec a).1)).1 ++
           (splitLines ((splitLines (s.lineBuf ++ (feedBytes s.dec a).1)).2 ++
             (feedBytes (feedBytes s.dec a).2 b).1)).1) } := by
    unfold stepChunk
    rw [hfb]
    dsimp only
    rw [← List.append_assoc s.lineBuf (feedBytes s.dec a).1 (feedBytes (feedBytes s.dec a).2 b).1]
    rw [splitLines_append (s.lineBuf ++ (feedBytes s.dec a).1)
      (feedBytes (feedBytes s.dec a).2 b).1]
  have h2 : stepChunk cfg s a =
      { dec := (feedBytes s.dec a).2,
        lineBuf := (splitLines (s.lineBuf ++ (feedBytes s.dec a).1)).2,
        ps := procLines cfg s.ps (splitLines (s.lineBuf ++ (feedBytes s.dec a).1)).1 } := rfl
  have hpl := procLines_append cfg
    (splitLines (s.lineBuf ++ (feedBytes s.dec a).1)).1
    ((splitLines ((splitLines (s.lineBuf ++ (feedBytes s.dec a).1)).2 ++
      (feedBytes (feedBytes s.dec a).2 b).1)).1) s.ps hd
  by_cases hp1 : (procLines cfg s.ps (splitLines (s.lineBuf ++ (feedBytes s.dec a).1)).1).doneSeen
  · rw [h1]
    rw [h2]
    simp only [hp1, if_true, ite_true]
    constructor
    · simp only [hpl, hp1, if_true, ite_true]
    · intro hdf
      rw [hpl] at hdf
      simp [hp1] at hdf
  · rw [h1]
    rw [h2]
    simp only [hp1, Bool.false_eq_true, if_false, ite_false]
    have h3 : stepChunk cfg
        { dec := (feedBytes s.dec a).2,
          lineBuf := (splitLines (s.lineBuf ++ (feedBytes s.dec a).1)).2,
          ps := procLines cfg s.ps (splitLines (s.lineBuf ++ (feedBytes s.dec a).1)).1 } b =
        { dec := (feedBytes (feedBytes s.dec a).2 b).2,
          lineBuf := (splitLines ((splitLines (s.lineBuf ++ (feedBytes s.dec a).1)).2 ++
            (feedBytes (feedBytes s.dec a).2 b).1)).2,
          ps := procLines cfg
            (procLines cfg s.ps (splitLines (s.lineBuf ++ (feedBytes s.dec a).1)).1)
            ((splitLines ((splitLines (s.lineBuf ++ (feedBytes s.dec a).1)).2 ++
              (feedBytes (feedBytes s.dec a).2 b).1)).1) } := rfl
    rw [h3]
    constructor
    · simp only [hpl, hp1, Bool.false_eq_true, if_false, ite_false]
    · intro hdf
      constructor
      · rfl
      · rfl

theorem obsEq_symm {s1 s2 : PipelineState} (h : obsEq s1 s2) : obsEq s2 s1 := by
  refine ⟨h.1.symm, fun hd => ?_⟩
  have := h.2 (by rw [h.1]; exact hd)
  exact ⟨this.1.symm, this.2.symm⟩

theorem obsEq_trans {s1 s2 s3 : PipelineState} (h12 : obsEq s1 s2) (h23 : obsEq s2 s3) :
    obsEq s1 s3 := by
  refine ⟨h12.1.trans h23.1, fun hd => ?_⟩
  have a := h12.2 hd
  have b := h23.2 (by rw [← h12.1]; exact hd)
  exact ⟨a.1.trans b.1, a.2.trans b.2⟩

theorem runChunks_done (cfg : Bool) (s : PipelineState) (hd : s.ps.doneSeen = true) :
    ∀ cs, runChunks cfg s cs = s := by
  intro cs
  cases cs with
  | nil => rfl
  | cons c cs => simp [runChunks, hd]

theorem stepChunk_noNL (cfg : Bool) (s : PipelineState) (c : List Nat) :
    '\n' ∉ (stepChunk cfg s c).lineBuf := by
  unfold stepChunk splitLines
  exact splitAux_residual_noNL _ [] (by simp)

theorem stepChunk_nil (cfg : Bool) (s : PipelineState) (hn : '\n' ∉ s.lineBuf) :
    stepChunk cfg s [] = s := by
  unfold stepChunk
  show (let d := feedBytes s.dec [];
    let r := splitLines (s.lineBuf ++ d.1);
    ({ dec := d.2, lineBuf := r.2, ps := procLines cfg s.ps r.1 } : PipelineState)) = s
  have hfb : feedBytes s.dec [] = ([], s.dec) := rfl
  rw [hfb]
  dsimp only
  rw [List.append_nil]
  unfold splitLines
  rw [splitAux_noNL s.lineBuf hn]
  rfl

theorem runChunks_join (cfg : Bool) (cs : List (List Nat)) :
    ∀ s : PipelineState, s.ps.doneSeen = false → '\n' ∉ s.lineBuf →
      obsEq (runChunks cfg s cs) (stepChunk cfg s cs.flatten) := by
  induction cs with
  | nil =>
    intro s hd hn
    rw [show ([] : List (List Nat)).flatten = [] from rfl, stepChunk_nil cfg s hn]
    exact ⟨rfl, fun _ => ⟨rfl, rfl⟩⟩
  | cons c cs ih =>
    intro s hd hn
    have hsa := stepChunk_append cfg s c cs.flatten hd
    rw [show (c :: cs).flatten = c ++ cs.flatten from rfl]
    rw [show runChunks cfg s (c :: cs) = runChunks cfg (stepChunk cfg s c) cs by
      simp [runChunks, hd]]
    by_cases hd1 : (stepChunk cfg s c).ps.doneSeen
    · rw [runChunks_done cfg _ hd1 cs]
      simp only [hd1, if_true, ite_true] at hsa
      exact obsEq_symm hsa
    · simp only [hd1, Bool.false_eq_true, if_false, ite_false] at hsa
      have ih2 := ih (stepChunk cfg s c) (by simpa using hd1) (stepChunk_noNL cfg s c)
      exact obsEq_trans ih2 (obsEq_symm hsa)

theorem finish_obsEq (cfg : Bool) {s1 s2 : PipelineState} (h : obsEq s1 s2) :
    finishStream cfg s1 = finishStream cfg s2 := by
  unfold finishStream
  by_cases hd : s1.ps.doneSeen
  · have hd2 : s2.ps.doneSeen = true := by rw [← h.1]; exact hd
    simp [hd, hd2, h.1]
  · have hb := h.2 (by simpa using hd)
    rw [h.1, hb.1]

/-- Spec claim C7. -/
theorem spec_C7 (cfg : Bool) (chunks : List (List Nat)) :
    processStreamingResponse cfg chunks = processStreamingResponse cfg [chunks.flatten] := by
  unfold processStreamingResponse
  have h1 := runChunks_join cfg chunks {} rfl (by simp)
  have h2 : runChunks cfg {} [chunks.flatten] = stepChunk cfg {} chunks.flatten := rfl
  rw [h2]
  exact finish_obsEq cfg h1

theorem lineContributes_eq (l : List Char) :
    lineContributes l =
      (match classifyLine l with
       | LineClass.dataFrame d =>
         (match jsonParse d with
          | none => false
          | some chunk => deltaOk chunk)
       | _ => false) := rfl

theorem processLine_emitted (cfg : Bool) (st : StreamState) (l : List Char) :
    (processLine cfg st l).emittedAny = (st.emittedAny || lineContributes l) := by
  rw [processLine_eq, lineContributes_eq]
  rcases hc : classifyLine l with _ | _ | _ | d | _
  · simp
  · simp
  · simp
  · unfold dataStep
    rcases hp : jsonParse d with _ | chunk
    · simp [hp]
    · simp [hp, processDelta_ok]
  · simp [termStep]

theorem procLines_done_iff (cfg : Bool) (ls : List (List Char)) :
    ∀ p : StreamState,
      (procLines cfg p ls).doneSeen = (p.doneSeen || ls.any isTermLine) := by
  induction ls with
  | nil => intro p; simp [procLines]
  | cons l ls ih =>
    intro p
    rw [procLines_cons]
    by_cases hd : (processLine cfg p l).doneSeen
    · simp only [hd, if_true, ite_true]
      rw [processLine_doneSeen] at hd
      simp only [List.any_cons]
      rcases Bool.or_eq_true _ _ |>.mp hd with h | h
      · simp [h]
      · simp [h]
    · simp only [hd, Bool.false_eq_true, if_false, ite_false]
      rw [ih, processLine_doneSeen]
      rw [processLine_doneSeen] at hd
      simp only [Bool.or_eq_true, not_or] at hd
      have h1 : p.doneSeen = false := Bool.eq_false_iff.mpr hd.1
      have h2 : isTermLine l = false := Bool.eq_false_iff.mpr hd.2
      simp [h1, h2]

theorem procLines_emitted (cfg : Bool) (ls : List (List Char)) :
    ∀ p : StreamState, p.doneSeen = false →
      (procLines cfg p ls).emittedAny =
        (p.emittedAny || (ls.takeWhile (fun l => !isTermLine l)).any lineContributes) := by
  induction ls with
  | nil => intro p _; simp [procLines]
  | cons l ls ih =>
    intro p hp
    rw [procLines_cons]
    by_cases ht : isTermLine l
    · have hdone : (processLine cfg p l).doneSeen = true := by
        rw [processLine_doneSeen]; simp [ht]
      simp only [hdone, if_true, ite_true]
      rw [processLine_emitted]
      have hcl : lineContributes l = false := by
        rw [lineContributes_eq]
        unfold isTermLine at ht
        simp only [decide_eq_true_eq] at ht
        rw [ht]
      simp [ht, hcl]
    · have hnd : (processLine cfg p l).doneSeen = false := by
        rw [processLine_doneSeen]; simp [hp, ht]
      simp only [hnd, Bool.false_eq_true, if_false, ite_false]
      rw [ih _ hnd, processLine_emitted]
      simp [ht, Bool.or_assoc]

theorem takeWhile_append_all (L : List (List Char)) (t : List (List Char))
    (h : ∀ l ∈ L, isTermLine l = false) :
    (L ++ t).takeWhile (fun l => !isTermLine l) = L ++ t.takeWhile (fun l => !isTermLine l) := by
  induction L with
  | nil => simp
  | cons x L ih =>
    have hx : isTermLine x = false := h x (by simp)
    simp only [List.cons_append, List.takeWhile_cons, hx]
    simp only [Bool.not_false, if_true, ite_true]
    rw [ih (fun l hl => h l (by simp [hl]))]

theorem takeWhile_append_stop (L : List (List Char)) (t : List (List Char))
    (h : L.any isTermLine = true) :
    (L ++ t).takeWhile (fun l => !isTermLine l) = L.takeWhile (fun l => !isTermLine l) := by
  induction L with
  | nil => simp at h
  | cons x L ih =>
    by_cases hx : isTermLine x
    · simp [List.takeWhile_cons, hx]
    · have hx' : isTermLine x = false := Bool.eq_false_iff.mpr hx
      simp only [List.any_cons, hx', Bool.false_or] at h
      simp only [List.cons_append, List.takeWhile_cons, hx', Bool.not_false, if_true, ite_true]
      rw [ih h]

theorem takeWhile_all (L : List (List Char)) (h : ∀ l ∈ L, isTermLine l = false) :
    L.takeWhile (fun l => !isTermLine l) = L := by
  have := takeWhile_append_all L [] h
  simpa using this

theorem any_contrib_false (L : List (List Char)) :
    L.any lineContributes = false ↔ ∀ l ∈ L, lineContributes l = false := by
  induction L with
  | nil => simp
  | cons x L ih => simp [List.any_cons, ih]

theorem any_term_false (L : List (List Char)) :
    L.any isTermLine = false ↔ ∀ l ∈ L, isTermLine l = false := by
  induction L with
  | nil => simp
  | cons x L ih => simp [List.any_cons, ih]

theorem lineContributes_term (l : List Char) (h : isTermLine l = true) :
    lineContributes l = false := by
  rw [lineContributes_eq]
  unfold isTermLine at h
  simp only [decide_eq_true_eq] at h
  rw [h]

theorem lineContributes_blank (l : List Char) (h : trimJs l = []) :
    lineContributes l = false := by
  rw [lineContributes_eq]
  unfold classifyLine
  simp [h]

theorem classify_blank_not_term (l : List Char) (h : trimJs l = []) :
    isTermLine l = false := by
  unfold isTermLine classifyLine
  simp [h]

/-- Amended claim C1. -/
theorem spec_C1 (cfg : Bool) (chunks : List (List Nat)) :
    (processStreamingResponse cfg chunks).emittedAny = false ↔
      ∀ l ∈ activeLinesOf chunks, lineContributes l = false := by
  have hobs := runChunks_join cfg chunks {} rfl (by simp)
  have hfin : processStreamingResponse cfg chunks =
      finishStream cfg (stepChunk cfg {} chunks.flatten) := by
    unfold processStreamingResponse
    exact finish_obsEq cfg hobs
  rw [hfin]
  have hstep : stepChunk cfg {} chunks.flatten =
      { dec := (feedBytes {} chunks.flatten).2,
        lineBuf := (splitLines (feedBytes {} chunks.flatten).1).2,
        ps := procLines cfg {} (splitLines (feedBytes {} chunks.flatten).1).1 } := rfl
  rw [hstep]
  have hall : allLinesOf chunks =
      (splitLines (feedBytes {} chunks.flatten).1).1 ++
        [(splitLines (feedBytes {} chunks.flatten).1).2] := rfl
  have hact : activeLinesOf chunks =
      ((splitLines (feedBytes {} chunks.flatten).1).1 ++
        [(splitLines (feedBytes {} chunks.flatten).1).2]).takeWhile
          (fun l => !isTermLine l) := rfl
  set ls := (splitLines (feedBytes ({} : Utf8State) chunks.flatten).1).1 with hls
  set rr := (splitLines (feedBytes ({} : Utf8State) chunks.flatten).1).2 with hrr
  have hpe := procLines_emitted cfg ls ({} : StreamState) rfl
  have hpd := procLines_done_iff cfg ls ({} : StreamState)
  by_cases hd1 : (procLines cfg ({} : StreamState) ls).doneSeen
  · have hany : ls.any isTermLine = true := by
      rw [hpd] at hd1
      simpa using hd1
    have hfin2 : finishStream cfg
        { dec := (feedBytes {} chunks.flatten).2, lineBuf := rr,
          ps := procLines cfg {} ls } = procLines cfg {} ls := by
      unfold finishStream
      simp [hd1]
    rw [hfin2, hact, takeWhile_append_stop ls [rr] hany]
    rw [hpe]
    simp only [Bool.false_or]
    exact any_contrib_false (ls.takeWhile (fun l => !isTermLine l))
  · have hd1' : (procLines cfg ({} : StreamState) ls).doneSeen = false :=
      Bool.eq_false_iff.mpr hd1
    have hany : ls.any isTermLine = false := by
      rw [hpd] at hd1'
      simpa using hd1'
    have hallf : ∀ l ∈ ls, isTermLine l = false := (any_term_false ls).mp hany
    have htw : ls.takeWhile (fun l => !isTermLine l) = ls := takeWhile_all ls hallf
    rw [hact, takeWhile_append_all ls [rr] hallf]
    by_cases htr : trimJs rr = []
    · have hfin2 : finishStream cfg
          { dec := (feedBytes {} chunks.flatten).2, lineBuf := rr,
            ps := procLines cfg {} ls } = procLines cfg {} ls := by
        unfold finishStream
        simp [htr]
      rw [hfin2, hpe, htw]
      simp only [Bool.false_or]
      have hrb : lineContributes rr = false := lineContributes_blank rr htr
      have hrt : isTermLine rr = false := classify_blank_not_term rr htr
      simp only [List.takeWhile_cons, hrt, Bool.not_false, if_true, ite_true,
        List.takeWhile_nil]
      constructor
      · intro h l hl
        simp only [List.mem_append, List.mem_singleton] at hl
        rcases hl with hl | hl
        · exact (any_contrib_false ls).mp h l hl
        · rw [hl]; exact hrb
      · intro h
        exact (any_contrib_false ls).mpr (fun l hl => h l (by simp [hl]))
    · have hfin2 : finishStream cfg
          { dec := (feedBytes {} chunks.flatten).2, lineBuf := rr,
            ps := procLines cfg {} ls } =
          processLine cfg (procLines cfg {} ls) rr := by
        unfold finishStream
        simp [hd1', htr]
      rw [hfin2, processLine_emitted, hpe, htw]
      simp only [Bool.false_or]
      by_cases hrt : isTermLine rr
      · have hrc : lineContributes rr = false := lineContributes_term rr hrt
        simp only [List.takeWhile_cons, hrt, Bool.not_true, Bool.false_eq_true, if_false,
          ite_false, hrc, Bool.or_false, List.append_nil]
        exact any_contrib_false ls
      · have hrt' : isTermLine rr = false := Bool.eq_false_iff.mpr hrt
        simp only [List.takeWhile_cons, hrt', Bool.not_false, if_true, ite_true,
          List.takeWhile_nil]
        rw [Bool.or_eq_false_iff]
        constructor
        · intro ⟨h1, h2⟩ l hl
          simp only [List.mem_append, List.mem_singleton] at hl
          rcases hl with hl | hl
          · exact (any_contrib_false ls).mp h1 l hl
          · rw [hl]; exact h2
        · intro h
          exact ⟨(any_contrib_false ls).mpr (fun l hl => h l (by simp [hl])),
            h rr (by simp)⟩

/-- Counterexample to claim C1 as stated. -/
theorem spec_C1_counterexample :
    (processStreamingResponse false
      [strBytes "data: \x7b\"choices\":[\x7b\"delta\":\x7b\x7d\x7d]\x7d\ndata: [DONE]\n"]).events
        = [] ∧
    (processStreamingResponse false
      [strBytes "data: \x7b\"choices\":[\x7b\"delta\":\x7b\x7d\x7d]\x7d\ndata: [DONE]\n"]).doneSeen
        = true ∧
    (processStreamingResponse false
      [strBytes "data: \x7b\"choices\":[\x7b\"delta\":\x7b\x7d\x7d]\x7d\ndata: [DONE]\n"]).emittedAny
        = true := by
  exact ⟨by decide, by decide, by decide⟩

theorem dropWhile_append_stable {p : Char → Bool} (u : List Char)
    (h : u.dropWhile p ≠ []) (t : List Char) :
    (u ++ t).takeWhile p = u.takeWhile p ∧ (u ++ t).dropWhile p = u.dropWhile p ++ t := by
  induction u with
  | nil => simp at h
  | cons c u ih =>
    by_cases hc : p c
    · simp only [List.dropWhile_cons, hc, if_true, ite_true] at h
      simp only [List.cons_append, List.takeWhile_cons, List.dropWhile_cons, hc,
        if_true, ite_true]
      exact ⟨by rw [(ih h).1], (ih h).2⟩
    · have hc' : p c = false := Bool.eq_false_iff.mpr hc
      simp only [List.cons_append, List.takeWhile_cons, List.dropWhile_cons, hc',
        Bool.false_eq_true, if_false, ite_false]
      simp

theorem skipWs_append_stable (u : List Char) (h : skipWs u ≠ []) (t : List Char) :
    skipWs (u ++ t) = skipWs u ++ t := by
  unfold skipWs at *
  exact (dropWhile_append_stable u h t).2

theorem psb_quote (r : List Char) : parseStringBody ('"' :: r) = some ([], r) := by
  rw [parseStringBody.eq_def]
  dsimp only
  rw [if_pos rfl]

theorem psb_esc (r : List Char) : parseStringBody ('\\' :: r) =
    (match r with
     | [] => none
     | e :: r2 =>
       if e = 'u' then
         match r2 with
         | x1 :: x2 :: x3 :: x4 :: r3 =>
           match hexVal x1, hexVal x2, hexVal x3, hexVal x4 with
           | some a, some b, some c3, some d =>
             (match parseStringBody r3 with
              | some (cs, rr) => some (Char.ofNat (((a * 16 + b) * 16 + c3) * 16 + d) :: cs, rr)
              | none => none)
           | _, _, _, _ => none
         | _ => none
       else
         match escChar e with
         | some ec =>
           (match parseStringBody r2 with
            | some (cs, rr) => some (ec :: cs, rr)
            | none => none)
         | none => none) := by
  rw [parseStringBody.eq_def]
  dsimp only
  rw [if_neg (by decide), if_pos rfl]

theorem psb_other (c : Char) (r : List Char) (h1 : ¬c = '"') (h2 : ¬c = '\\')
    (h3 : ¬c.toNat < 32) :
    parseStringBody (c :: r) =
      (match parseStringBody r with
       | some (cs, rr) => some (c :: cs, rr)
       | none => none) := by
  rw [parseStringBody.eq_def]
  dsimp only
  rw [if_neg h1, if_neg h2, if_neg h3]

theorem parseStringBody_stable :
    ∀ (u t cs r : List Char), parseStringBody u = some (cs, r) →
      parseStringBody (u ++ t) = some (cs, r ++ t)
  | [], t, cs, r => by
    intro h
    simp [parseStringBody] at h
  | c :: rest, t, cs, r => by
    intro h
    rw [List.cons_append]
    by_cases hq : c = '"'
    · subst hq
      rw [psb_quote] at h
      rw [psb_quote]
      obtain ⟨h1, h2⟩ := Prod.mk.injEq _ _ _ _ |>.mp (Option.some_inj.mp h)
      subst h1
      rw [← h2]
    · by_cases hb : c = '\\'
      · subst hb
        rw [psb_esc] at h
        rw [psb_esc]
        rcases rest with _ | ⟨e, r2⟩
        · simp at h
        · rw [show (e :: r2) ++ t = e :: (r2 ++ t) from rfl]
          dsimp only at h ⊢
          by_cases hu : e = 'u'
          · subst hu
            rw [if_pos rfl] at h ⊢
            rcases r2 with _ | ⟨x1, r3⟩
            · simp at h
            · rcases r3 with _ | ⟨x2, r4⟩
              · simp at h
              · rcases r4 with _ | ⟨x3, r5⟩
                · simp at h
                · rcases r5 with _ | ⟨x4, r6⟩
                  · simp at h
                  · rw [show (x1 :: x2 :: x3 :: x4 :: r6) ++ t =
                      x1 :: x2 :: x3 :: x4 :: (r6 ++ t) from rfl]
                    dsimp only at h ⊢
                    rcases hh1 : hexVal x1 with _ | a
                    · simp [hh1] at h
                    · rcases hh2 : hexVal x2 with _ | b2
                      · simp [hh1, hh2] at h
                      · rcases hh3 : hexVal x3 with _ | c3
                        · simp [hh1, hh2, hh3] at h
                        · rcases hh4 : hexVal x4 with _ | d4
                          · simp [hh1, hh2, hh3, hh4] at h
                          · simp only [hh1, hh2, hh3, hh4] at h ⊢
                            rcases hp : parseStringBody r6 with _ | ⟨cs1, rr⟩
                            · simp [hp] at h
                            · simp only [hp, parseStringBody_stable r6 t cs1 rr hp] at h ⊢
                              obtain ⟨h1, h2⟩ :=
                                Prod.mk.injEq _ _ _ _ |>.mp (Option.some_inj.mp h)
                              rw [← h1, ← h2]
          · rw [if_neg hu] at h ⊢
            rcases he : escChar e with _ | ec
            · simp [he] at h
            · simp only [he] at h ⊢
              rcases hp : parseStringBody r2 with _ | ⟨cs1, rr⟩
              · simp [hp] at h
              · simp only [hp, parseStringBody_stable r2 t cs1 rr hp] at h ⊢
                obtain ⟨h1, h2⟩ := Prod.mk.injEq _ _ _ _ |>.mp (Option.some_inj.mp h)
                rw [← h1, ← h2]
      · by_cases hctl : c.toNat < 32
        · rw [show parseStringBody (c :: rest) = none from by
            rw [parseStringBody.eq_def]
            dsimp only
            rw [if_neg hq, if_neg hb, if_pos hctl]] at h
          exact Option.noConfusion h
        · rw [psb_other c rest hq hb hctl] at h
          rw [psb_other c (rest ++ t) hq hb hctl]
          rcases hp : parseStringBody rest with _ | ⟨cs1, rr⟩
          · simp [hp] at h
          · simp only [hp, parseStringBody_stable rest t cs1 rr hp] at h ⊢
            obtain ⟨h1, h2⟩ := Prod.mk.injEq _ _ _ _ |>.mp (Option.some_inj.mp h)
            rw [← h1, ← h2]

theorem takeWhile_append_stable2 {p : Char → Bool} (u : List Char)
    (h : u.dropWhile p ≠ []) (t : List Char) :
    (u ++ t).takeWhile p = u.takeWhile p :=
  (dropWhile_append_stable u h t).1

theorem afterExp_nil (neg : Bool) (i f : List Char) :
    afterExp neg i f [] = some (mkNum neg i f 1 [], []) := rfl

theorem afterExp_digits (neg : Bool) (i f : List Char) (es : Int) (r1 : List Char)
    (v : JSValue) (r t : List Char)
    (h : (if r1.takeWhile isDigit = [] then none
          else some (mkNum neg i f es (r1.takeWhile isDigit), r1.dropWhile isDigit))
         = some (v, r))
    (hr : r ≠ []) :
    (if (r1 ++ t).takeWhile isDigit = [] then none
     else some (mkNum neg i f es ((r1 ++ t).takeWhile isDigit), (r1 ++ t).dropWhile isDigit))
    = some (v, r ++ t) := by
  by_cases hd : r1.dropWhile isDigit = []
  · rcases List.eq_nil_or_concat (r1.takeWhile isDigit) with he0 | _
    · simp [he0] at h
    · rw [if_neg (by simp_all)] at h
      obtain ⟨h1, h2⟩ := Prod.mk.injEq _ _ _ _ |>.mp (Option.some_inj.mp h)
      rw [hd] at h2
      exact absurd h2.symm hr
  · rw [takeWhile_append_stable2 r1 hd t, (dropWhile_append_stable r1 hd t).2]
    rcases he0 : r1.takeWhile isDigit with _ | _
    · simp [he0] at h
    · rw [he0] at h
      rw [if_neg (by simp)] at h ⊢
      obtain ⟨h1, h2⟩ := Prod.mk.injEq _ _ _ _ |>.mp (Option.some_inj.mp h)
      rw [← h1, ← h2]

theorem afterExp_stable (neg : Bool) (i f : List Char) :
    ∀ (s : List Char) (v : JSValue) (r t : List Char),
      afterExp neg i f s = some (v, r) → r ≠ [] →
      afterExp neg i f (s ++ t) = some (v, r ++ t) := by
  intro s v r t h hr
  rcases s with _ | ⟨c, r0⟩
  · rw [afterExp_nil] at h
    obtain ⟨h1, h2⟩ := Prod.mk.injEq _ _ _ _ |>.mp (Option.some_inj.mp h)
    exact absurd h2.symm hr
  · rw [List.cons_append]
    by_cases he : c = 'e' ∨ c = 'E'
    · simp only [afterExp, if_pos he] at h ⊢
      rcases r0 with _ | ⟨c2, rr⟩
      · simp [expSign] at h
      · rw [List.cons_append]
        by_cases hp2 : c2 = '+'
        · simp only [expSign, if_pos hp2] at h ⊢
          exact afterExp_digits neg i f 1 rr v r t h hr
        · by_cases hm2 : c2 = '-'
          · simp only [expSign, if_neg hp2, if_pos hm2] at h ⊢
            exact afterExp_digits neg i f (-1) rr v r t h hr
          · simp only [expSign, if_neg hp2, if_neg hm2] at h ⊢
            have := afterExp_digits neg i f 1 (c2 :: rr) v r t h hr
            rw [List.cons_append] at this
            exact this
    · simp only [afterExp, if_neg he] at h ⊢
      obtain ⟨h1, h2⟩ := Prod.mk.injEq _ _ _ _ |>.mp (Option.some_inj.mp h)
      rw [← h1, ← h2, List.cons_append]

theorem afterExp_ne_nil (neg : Bool) (i f : List Char) (v : JSValue) (r : List Char)
    (h : afterExp neg i f [] = some (v, r)) : r = [] := by
  rw [afterExp_nil] at h
  exact (Prod.mk.injEq _ _ _ _ |>.mp (Option.some_inj.mp h)).2.symm

theorem afterFrac_nil (neg : Bool) (i : List Char) :
    afterFrac neg i [] = some (mkNum neg i [] 1 [], []) := rfl

theorem afterFrac_stable (neg : Bool) (i : List Char) :
    ∀ (s : List Char) (v : JSValue) (r t : List Char),
      afterFrac neg i s = some (v, r) → r ≠ [] →
      afterFrac neg i (s ++ t) = some (v, r ++ t) := by
  intro s v r t h hr
  rcases s with _ | ⟨c, r0⟩
  · rw [afterFrac_nil] at h
    obtain ⟨h1, h2⟩ := Prod.mk.injEq _ _ _ _ |>.mp (Option.some_inj.mp h)
    exact absurd h2.symm hr
  · rw [List.cons_append]
    by_cases hdot : c = '.'
    · simp only [afterFrac, if_pos hdot] at h ⊢
      rcases he0 : r0.takeWhile isDigit with _ | _
      · simp [he0] at h
      · rw [he0] at h
        rw [if_neg (by simp)] at h
        have hd : r0.dropWhile isDigit ≠ [] := by
          intro hnil
          rw [hnil] at h
          exact hr (afterExp_ne_nil neg i _ v r h)
        rw [takeWhile_append_stable2 r0 hd t, (dropWhile_append_stable r0 hd t).2, he0,
          if_neg (by simp)]
        exact afterExp_stable neg i _ _ v r t h hr
    · simp only [afterFrac, if_neg hdot] at h ⊢
      have := afterExp_stable neg i [] (c :: r0) v r t h hr
      rw [List.cons_append] at this
      exact this

theorem afterFrac_ne_nil (neg : Bool) (i : List Char) (v : JSValue) (r : List Char)
    (h : afterFrac neg i [] = some (v, r)) : r = [] := by
  rw [afterFrac_nil] at h
  exact (Prod.mk.injEq _ _ _ _ |>.mp (Option.some_inj.mp h)).2.symm

theorem parseNumber_nil : parseNumber [] = none := rfl

theorem parseNumber_core_stable (neg : Bool) :
    ∀ (s1 : List Char) (v : JSValue) (r t : List Char),
      (match s1 with
       | c :: r1 =>
         if c = '0' then afterFrac neg ['0'] r1
         else if isDigit c then
           afterFrac neg (c :: r1.takeWhile isDigit) (r1.dropWhile isDigit)
         else none
       | [] => none) = some (v, r) → r ≠ [] →
      (match s1 ++ t with
       | c :: r1 =>
         if c = '0' then afterFrac neg ['0'] r1
         else if isDigit c then
           afterFrac neg (c :: r1.takeWhile isDigit) (r1.dropWhile isDigit)
         else none
       | [] => none) = some (v, r ++ t) := by
  intro s1 v r t h hr
  rcases s1 with _ | ⟨c, r1⟩
  · simp at h
  · rw [List.cons_append]
    dsimp only at h ⊢
    by_cases h0 : c = '0'
    · rw [if_pos h0] at h ⊢
      exact afterFrac_stable neg ['0'] r1 v r t h hr
    · rw [if_neg h0] at h ⊢
      by_cases hdig : isDigit c
      · rw [if_pos hdig] at h ⊢
        have hd : r1.dropWhile isDigit ≠ [] := by
          intro hnil
          rw [hnil] at h
          exact hr (afterFrac_ne_nil neg _ v r h)
        rw [takeWhile_append_stable2 r1 hd t, (dropWhile_append_stable r1 hd t).2]
        exact afterFrac_stable neg _ _ v r t h hr
      · rw [if_neg hdig] at h
        exact absurd h (by simp)

theorem parseNumber_stable :
    ∀ (s : List Char) (v : JSValue) (r t : List Char),
      parseNumber s = some (v, r) → r ≠ [] →
      parseNumber (s ++ t) = some (v, r ++ t) := by
  intro s v r t h hr
  rcases s with _ | ⟨c, r0⟩
  · rw [parseNumber_nil] at h
    exact absurd h (by simp)
  · rw [List.cons_append]
    by_cases hneg : c = '-'
    · simp only [parseNumber, if_pos hneg] at h ⊢
      exact parseNumber_core_stable true r0 v r t h hr
    · simp only [parseNumber, if_neg hneg] at h ⊢
      have := parseNumber_core_stable false (c :: r0) v r t h hr
      rw [List.cons_append] at this
      exact this

theorem mkNum_shape (neg : Bool) (i f : List Char) (es : Int) (ed : List Char) :
    ∃ m e, mkNum neg i f es ed = .jnum m e := by
  simp only [mkNum]
  split
  · exact ⟨0, 0, rfl⟩
  · exact ⟨_, _, rfl⟩

theorem afterExp_shape (neg : Bool) (i f : List Char) :
    ∀ (s : List Char) (v : JSValue) (r : List Char),
      afterExp neg i f s = some (v, r) → ∃ m e, v = .jnum m e := by
  intro s v r h
  rcases s with _ | ⟨c, r0⟩
  · rw [afterExp_nil] at h
    obtain ⟨h1, h2⟩ := Prod.mk.injEq _ _ _ _ |>.mp (Option.some_inj.mp h)
    obtain ⟨m, e, hm⟩ := mkNum_shape neg i f 1 []
    exact ⟨m, e, by rw [← h1, hm]⟩
  · by_cases he : c = 'e' ∨ c = 'E'
    · simp only [afterExp, if_pos he] at h
      split at h
      · exact absurd h (by simp)
      · obtain ⟨h1, h2⟩ := Prod.mk.injEq _ _ _ _ |>.mp (Option.some_inj.mp h)
        obtain ⟨m, e, hm⟩ := mkNum_shape neg i f (expSign r0).1 ((expSign r0).2.takeWhile isDigit)
        exact ⟨m, e, by rw [← h1, hm]⟩
    · simp only [afterExp, if_neg he] at h
      obtain ⟨h1, h2⟩ := Prod.mk.injEq _ _ _ _ |>.mp (Option.some_inj.mp h)
      obtain ⟨m, e, hm⟩ := mkNum_shape neg i f 1 []
      exact ⟨m, e, by rw [← h1, hm]⟩

theorem afterFrac_shape (neg : Bool) (i : List Char) :
    ∀ (s : List Char) (v : JSValue) (r : List Char),
      afterFrac neg i s = some (v, r) → ∃ m e, v = .jnum m e := by
  intro s v r h
  rcases s with _ | ⟨c, r0⟩
  · exact afterExp_shape neg i [] [] v r h
  · by_cases hdot : c = '.'
    · simp only [afterFrac, if_pos hdot] at h
      split at h
      · exact absurd h (by simp)
      · exact afterExp_shape neg i _ _ v r h
    · simp only [afterFrac, if_neg hdot] at h
      exact afterExp_shape neg i [] _ v r h

theorem parseNumber_shape :
    ∀ (s : List Char) (v : JSValue) (r : List Char),
      parseNumber s = some (v, r) → ∃ m e, v = .jnum m e := by
  intro s v r h
  simp only [parseNumber] at h
  split at h
  · split at h
    · exact afterFrac_shape _ _ _ v r h
    · split at h
      · exact afterFrac_shape _ _ _ v r h
      · exact absurd h (by simp)
  · exact absurd h (by simp)

theorem parseVal_nil : ∀ f, parseVal f [] = none := by
  intro f
  cases f <;> rfl

theorem parseObjItems_nil : ∀ f acc, parseObjItems f [] acc = none := by
  intro f acc
  cases f <;> rfl

theorem parseObjItems_cons (f : Nat) (rest : List Char) (acc : List (List Char × JSValue)) :
    parseObjItems (f + 1) ('"' :: rest) acc =
      (match parseStringBody rest with
       | none => none
       | some (key, r1) =>
         match skipWs r1 with
         | ':' :: r2 =>
           match parseVal f (skipWs r2) with
           | none => none
           | some (v, r3) =>
             match skipWs r3 with
             | ',' :: r4 => parseObjItems f (skipWs r4) (objInsert acc key v)
             | '}' :: r4 => some (.jobj (objInsert acc key v), r4)
             | _ => none
         | _ => none) := rfl

theorem parse_stable : ∀ f : Nat,
    (∀ s v r t k, parseVal f s = some (v, r) → (r ≠ [] ∨ selfDelim v = true) →
      parseVal (f + k) (s ++ t) = some (v, r ++ t)) ∧
    (∀ s acc v r t k, parseObjItems f s acc = some (v, r) →
      parseObjItems (f + k) (s ++ t) acc = some (v, r ++ t)) ∧
    (∀ s acc v r t k, parseArrItems f s acc = some (v, r) →
      parseArrItems (f + k) (s ++ t) acc = some (v, r ++ t)) := by
  intro f
  induction f with
  | zero =>
    refine ⟨?_, ?_, ?_⟩
    · intro s v r t k h _
      rw [show parseVal 0 s = none from rfl] at h
      exact absurd h (by simp)
    · intro s acc v r t k h
      rw [show parseObjItems 0 s acc = none from rfl] at h
      exact absurd h (by simp)
    · intro s acc v r t k h
      rw [show parseArrItems 0 s acc = none from rfl] at h
      exact absurd h (by simp)
  | succ f ih =>
    obtain ⟨ihV, ihO, ihA⟩ := ih
    refine ⟨?_, ?_, ?_⟩
    · -- parseVal
      intro s v r t k h hside
      have hfk : f + 1 + k = (f + k) + 1 := by omega
      rw [hfk]
      rcases s with _ | ⟨c, rest⟩
      · rw [parseVal_nil] at h
        exact absurd h (by simp)
      · rw [List.cons_append]
        simp only [parseVal] at h ⊢
        by_cases hob : c = '{'
        · rw [if_pos hob] at h ⊢
          split at h
          · rename_i x heq
            obtain ⟨h1, h2⟩ := Prod.mk.injEq _ _ _ _ |>.mp (Option.some_inj.mp h)
            have hsw : skipWs (rest ++ t) = '}' :: (x ++ t) := by
              rw [skipWs_append_stable rest (by rw [heq]; simp) t, heq, List.cons_append]
            rw [hsw]
            show some (JSValue.jobj [], x ++ t) = some (v, r ++ t)
            rw [← h1, ← h2]
          · rename_i hne
            rcases hsw0 : skipWs rest with _ | ⟨c1, w⟩
            · rw [hsw0, parseObjItems_nil] at h
              exact absurd h (by simp)
            · rw [hsw0] at h
              have hsw : skipWs (rest ++ t) = c1 :: (w ++ t) := by
                rw [skipWs_append_stable rest (by rw [hsw0]; simp) t, hsw0, List.cons_append]
              rw [hsw]
              have hc1 : ¬c1 = '}' := fun hh => hne w (by rw [hsw0, hh])
              split
              · rename_i y heqy
                exact absurd (List.cons.inj heqy).1 hc1
              · have := ihO (c1 :: w) [] v r t k h
                rw [List.cons_append] at this
                exact this
        · rw [if_neg hob] at h ⊢
          by_cases har : c = '['
          · rw [if_pos har] at h ⊢
            split at h
            · rename_i x heq
              obtain ⟨h1, h2⟩ := Prod.mk.injEq _ _ _ _ |>.mp (Option.some_inj.mp h)
              have hsw : skipWs (rest ++ t) = ']' :: (x ++ t) := by
                rw [skipWs_append_stable rest (by rw [heq]; simp) t, heq, List.cons_append]
              rw [hsw]
              show some (JSValue.jarr [], x ++ t) = some (v, r ++ t)
              rw [← h1, ← h2]
            · rename_i hne
              rcases hsw0 : skipWs rest with _ | ⟨c1, w⟩
              · rw [hsw0] at h
                rw [show parseArrItems f [] [] = none from by
                  cases f <;> simp [parseArrItems, parseVal_nil]] at h
                exact absurd h (by simp)
              · rw [hsw0] at h
                have hsw : skipWs (rest ++ t) = c1 :: (w ++ t) := by
                  rw [skipWs_append_stable rest (by rw [hsw0]; simp) t, hsw0, List.cons_append]
                rw [hsw]
                have hc1 : ¬c1 = ']' := fun hh => hne w (by rw [hsw0, hh])
                split
                · rename_i y heqy
                  exact absurd (List.cons.inj heqy).1 hc1
                · have := ihA (c1 :: w) [] v r t k h
                  rw [List.cons_append] at this
                  exact this
          · rw [if_neg har] at h ⊢
            by_cases hq : c = '"'
            · rw [if_pos hq] at h ⊢
              rcases hp : parseStringBody rest with _ | ⟨cs, rr⟩
              · rw [hp] at h
                exact absurd h (by simp)
              · rw [hp] at h
                rw [parseStringBody_stable rest t cs rr hp]
                obtain ⟨h1, h2⟩ := Prod.mk.injEq _ _ _ _ |>.mp (Option.some_inj.mp h)
                show some (JSValue.jstr cs, rr ++ t) = some (v, r ++ t)
                rw [← h1, ← h2]
            · rw [if_neg hq] at h ⊢
              by_cases ht : c = 't'
              · rw [if_pos ht] at h ⊢
                split at h
                · obtain ⟨h1, h2⟩ := Prod.mk.injEq _ _ _ _ |>.mp (Option.some_inj.mp h)
                  simp only [List.cons_append]
                  rw [h2]
                  show some (JSValue.jbool true, r ++ t) = some (v, r ++ t)
                  rw [← h1]
                · exact absurd h (by simp)
              · rw [if_neg ht] at h ⊢
                by_cases hf : c = 'f'
                · rw [if_pos hf] at h ⊢
                  split at h
                  · obtain ⟨h1, h2⟩ := Prod.mk.injEq _ _ _ _ |>.mp (Option.some_inj.mp h)
                    simp only [List.cons_append]
                    rw [h2]
                    show some (JSValue.jbool false, r ++ t) = some (v, r ++ t)
                    rw [← h1]
                  · exact absurd h (by simp)
                · rw [if_neg hf] at h ⊢
                  by_cases hn : c = 'n'
                  · rw [if_pos hn] at h ⊢
                    split at h
                    · obtain ⟨h1, h2⟩ := Prod.mk.injEq _ _ _ _ |>.mp (Option.some_inj.mp h)
                      simp only [List.cons_append]
                      rw [h2]
                      show some (JSValue.jnull, r ++ t) = some (v, r ++ t)
                      rw [← h1]
                    · exact absurd h (by simp)
                  · rw [if_neg hn] at h ⊢
                    have hnum := parseNumber_shape _ _ _ h
                    obtain ⟨m, e, hm⟩ := hnum
                    have hr : r ≠ [] := by
                      rcases hside with hr | hdel
                      · exact hr
                      · rw [hm] at hdel
                        exact absurd hdel (by simp [selfDelim])
                    have := parseNumber_stable (c :: rest) v r t h hr
                    rw [List.cons_append] at this
                    exact this
    · -- parseObjItems
      intro s acc v r t k h
      have hfk : f + 1 + k = (f + k) + 1 := by omega
      rw [hfk]
      rcases s with _ | ⟨c0, rest⟩
      · rw [parseObjItems_nil] at h
        exact absurd h (by simp)
      · rw [List.cons_append]
        by_cases hc0 : c0 = '"'
        · subst hc0
          rw [parseObjItems_cons] at h
          rw [parseObjItems_cons]
          rcases hp : parseStringBody rest with _ | ⟨key, r1⟩
          · rw [hp] at h
            exact absurd h (by simp)
          · rw [hp] at h
            rw [parseStringBody_stable rest t key r1 hp]
            dsimp only at h ⊢
            split at h
            · rename_i r2 heq
              have hsw1 : skipWs (r1 ++ t) = ':' :: (r2 ++ t) := by
                rw [skipWs_append_stable r1 (by rw [heq]; simp) t, heq, List.cons_append]
              rw [hsw1]
              show (match parseVal (f + k) (skipWs (r2 ++ t)) with
                    | none => none
                    | some (w, r3) =>
                      match skipWs r3 with
                      | ',' :: r4 => parseObjItems (f + k) (skipWs r4) (objInsert acc key w)
                      | '}' :: r4 => some (.jobj (objInsert acc key w), r4)
                      | _ => none) = some (v, r ++ t)
              rcases hv : parseVal f (skipWs r2) with _ | ⟨w, r3⟩
              · rw [hv] at h
                exact absurd h (by simp)
              · rw [hv] at h
                dsimp only at h
                rcases hswr2 : skipWs r2 with _ | ⟨d, w2⟩
                · rw [hswr2, parseVal_nil] at hv
                  exact absurd hv (by simp)
                · have hsw2 : skipWs (r2 ++ t) = skipWs r2 ++ t :=
                    skipWs_append_stable r2 (by rw [hswr2]; simp) t
                  split at h
                  · rename_i r4 heq3
                    have hr3 : r3 ≠ [] := by
                      intro hh
                      rw [hh] at heq3
                      simp [skipWs] at heq3
                    have hv' := ihV (skipWs r2) w r3 t k hv (Or.inl hr3)
                    rw [hsw2, hv']
                    dsimp only
                    have hsw3 : skipWs (r3 ++ t) = ',' :: (r4 ++ t) := by
                      rw [skipWs_append_stable r3 (by rw [heq3]; simp) t, heq3, List.cons_append]
                    rw [hsw3]
                    show parseObjItems (f + k) (skipWs (r4 ++ t)) (objInsert acc key w)
                      = some (v, r ++ t)
                    rcases hswr4 : skipWs r4 with _ | ⟨d4, w4⟩
                    · rw [hswr4, parseObjItems_nil] at h
                      exact absurd h (by simp)
                    · have hsw4 : skipWs (r4 ++ t) = skipWs r4 ++ t :=
                        skipWs_append_stable r4 (by rw [hswr4]; simp) t
                      rw [hsw4]
                      exact ihO (skipWs r4) (objInsert acc key w) v r t k h
                  · rename_i r4 heq3
                    have hr3 : r3 ≠ [] := by
                      intro hh
                      rw [hh] at heq3
                      simp [skipWs] at heq3
                    have hv' := ihV (skipWs r2) w r3 t k hv (Or.inl hr3)
                    rw [hsw2, hv']
                    dsimp only
                    have hsw3 : skipWs (r3 ++ t) = '}' :: (r4 ++ t) := by
                      rw [skipWs_append_stable r3 (by rw [heq3]; simp) t, heq3, List.cons_append]
                    rw [hsw3]
                    show some (JSValue.jobj (objInsert acc key w), r4 ++ t) = some (v, r ++ t)
                    obtain ⟨h1, h2⟩ := Prod.mk.injEq _ _ _ _ |>.mp (Option.some_inj.mp h)
                    rw [← h1, ← h2]
                  · exact absurd h (by simp)
            · exact absurd h (by simp)
        · rw [show parseObjItems (f + 1) (c0 :: rest) acc = none from by
            rw [parseObjItems.eq_def]
            dsimp only
            split
            · rename_i heqq
              exact absurd (List.cons.inj heqq).1 hc0
            · rfl] at h
          exact absurd h (by simp)
    · -- parseArrItems
      intro s acc v r t k h
      have hfk : f + 1 + k = (f + k) + 1 := by omega
      rw [hfk]
      simp only [parseArrItems] at h ⊢
      rcases hv : parseVal f s with _ | ⟨w, r1⟩
      · rw [hv] at h
        exact absurd h (by simp)
      · rw [hv] at h
        dsimp only at h
        split at h
        · rename_i r2 heq
          have hr1 : r1 ≠ [] := by
            intro hh
            rw [hh] at heq
            simp [skipWs] at heq
          have hv' := ihV s w r1 t k hv (Or.inl hr1)
          rw [hv']
          dsimp only
          have hsw1 : skipWs (r1 ++ t) = ',' :: (r2 ++ t) := by
            rw [skipWs_append_stable r1 (by rw [heq]; simp) t, heq, List.cons_append]
          rw [hsw1]
          show parseArrItems (f + k) (skipWs (r2 ++ t)) (acc ++ [w]) = some (v, r ++ t)
          rcases hswr2 : skipWs r2 with _ | ⟨d, w2⟩
          · rw [hswr2] at h
            rw [show parseArrItems f [] (acc ++ [w]) = none from by
              cases f <;> simp [parseArrItems, parseVal_nil]] at h
            exact absurd h (by simp)
          · have hsw2 : skipWs (r2 ++ t) = skipWs r2 ++ t :=
              skipWs_append_stable r2 (by rw [hswr2]; simp) t
            rw [hsw2]
            exact ihA (skipWs r2) (acc ++ [w]) v r t k h
        · rename_i r2 heq
          have hr1 : r1 ≠ [] := by
            intro hh
            rw [hh] at heq
            simp [skipWs] at heq
          have hv' := ihV s w r1 t k hv (Or.inl hr1)
          rw [hv']
          dsimp only
          have hsw1 : skipWs (r1 ++ t) = ']' :: (r2 ++ t) := by
            rw [skipWs_append_stable r1 (by rw [heq]; simp) t, heq, List.cons_append]
          rw [hsw1]
          show some (JSValue.jarr (acc ++ [w]), r2 ++ t) = some (v, r ++ t)
          obtain ⟨h1, h2⟩ := Prod.mk.injEq _ _ _ _ |>.mp (Option.some_inj.mp h)
          rw [← h1, ← h2]
        · exact absurd h (by simp)

theorem tryParse_some (s : List Char) (f1 : List (List Char × JSValue))
    (h : tryParseJSONObject s = some f1) : jsonParse s = some (.jobj f1) := by
  simp only [tryParseJSONObject] at h
  split at h
  · rename_i fs heq
    rw [heq, Option.some_inj.mp h]
  · exact absurd h (by simp)

theorem jsonParse_obj (s : List Char) (fs : List (List Char × JSValue))
    (h : jsonParse s = some (.jobj fs)) :
    ∃ r, parseVal (s.length + 1) (skipWs s) = some (.jobj fs, r) ∧ skipWs r = [] := by
  simp only [jsonParse] at h
  split at h
  · rename_i w r heq
    by_cases hsk : skipWs r = []
    · rw [if_pos hsk] at h
      exact ⟨r, by rw [heq, Option.some_inj.mp h], hsk⟩
    · rw [if_neg hsk] at h
      exact absurd h (by simp)
  · exact absurd h (by simp)

theorem tryParse_prefix (s t : List Char) (f1 f2 : List (List Char × JSValue))
    (h1 : tryParseJSONObject s = some f1)
    (h2 : tryParseJSONObject (s ++ t) = some f2) : f1 = f2 := by
  have hj1 := tryParse_some s f1 h1
  have hj2 := tryParse_some (s ++ t) f2 h2
  obtain ⟨r, hv, hskip⟩ := jsonParse_obj s f1 hj1
  have hsne : skipWs s ≠ [] := by
    intro hh
    rw [hh, parseVal_nil] at hv
    exact absurd hv (by simp)
  have hswt : skipWs (s ++ t) = skipWs s ++ t := skipWs_append_stable s hsne t
  have hstab := (parse_stable (s.length + 1)).1 (skipWs s) (.jobj f1) r t t.length hv
    (Or.inr (by simp [selfDelim]))
  have hlen : (s ++ t).length + 1 = s.length + 1 + t.length := by
    simp [List.length_append]
    omega
  obtain ⟨r2, hv2, hskip2⟩ := jsonParse_obj (s ++ t) f2 hj2
  rw [hlen, hswt, hstab] at hv2
  obtain ⟨ha, hb⟩ := Prod.mk.injEq _ _ _ _ |>.mp (Option.some_inj.mp hv2)
  exact JSValue.jobj.inj ha

theorem mkArgFrag_index (idxV : JSValue) (a : List Char) :
    jsGet (mkArgFrag idxV a) "index".data = some idxV := rfl

theorem mkArgFrag_id (idxV : JSValue) (a : List Char) :
    jsGet (mkArgFrag idxV a) "id".data = none := rfl

theorem mkArgFrag_fn (idxV : JSValue) (a : List Char) :
    jsGet (mkArgFrag idxV a) "function".data = some (.jobj [("arguments".data, .jstr a)]) := rfl

theorem mkArgFrag_name (idxV : JSValue) (a : List Char) :
    optChain (jsGet (mkArgFrag idxV a) "function".data) "name".data = none := rfl

theorem mkArgFrag_args (idxV : JSValue) (a : List Char) :
    optChain (jsGet (mkArgFrag idxV a) "function".data) "arguments".data = some (.jstr a) := rfl

theorem mkArgFrag_ne_null (idxV : JSValue) (a : List Char) :
    mkArgFrag idxV a ≠ .jnull := by
  simp [mkArgFrag]

theorem applyToolFragment_mkArgFrag (idxV : JSValue) (a : List Char) (st : DecoderState)
    (b : BufferedToolCall) (hb : alGet st.toolCallBuffers (some idxV) = some b) :
    applyToolFragment (mkArgFrag idxV a) st =
      { st with toolCallBuffers := alSet st.toolCallBuffers (some idxV) ⟨b.id, b.name, b.args ++ a⟩ } := by
  rcases b with ⟨bid, bnm, bargs⟩
  by_cases ha : a = []
  · subst ha
    simp [applyToolFragment, mkArgFrag, jsGet, optChain, truthy, truthyV, jsToString, hb]
  · simp [applyToolFragment, mkArgFrag, jsGet, optChain, truthy, truthyV, jsToString, hb, ha]

theorem tryEmit_buf_noparse (idx : Option JSValue) (st : DecoderState) (b : BufferedToolCall)
    (nm : JSValue) (hb : alGet st.toolCallBuffers idx = some b) (hn : b.name = some nm)
    (ht : truthyV nm = true) (hp : tryParseJSONObject b.args = none) :
    tryEmitBufferedToolCall idx st = ([], st) := by
  simp only [tryEmitBufferedToolCall, hb, hn, hp, ht]
  simp

theorem tryEmit_buf_parse (idx : Option JSValue) (st : DecoderState) (b : BufferedToolCall)
    (nm : JSValue) (fields : List (List Char × JSValue))
    (hb : alGet st.toolCallBuffers idx = some b) (hn : b.name = some nm)
    (ht : truthyV nm = true) (hp : tryParseJSONObject b.args = some fields) :
    tryEmitBufferedToolCall idx st =
      ([SSEEvent.toolCall (cidOf b.id st.callCtr) nm fields],
       { st with toolCallBuffers := alDel st.toolCallBuffers idx, completedToolCallIndices := setAdd st.completedToolCallIndices idx, callCtr := ctrOf b.id st.callCtr }) := by
  simp only [tryEmitBufferedToolCall, hb, hn, hp, ht]
  rcases hid : b.id with _ | idv
  · simp [cidOf, ctrOf]
  · by_cases htid : truthyV idv = true
    · simp [cidOf, ctrOf, htid]
    · simp [cidOf, ctrOf, htid]

theorem ptc_step_noparse (idxV : JSValue) (a : List Char) (st : DecoderState)
    (bid : Option JSValue) (bargs : List Char) (nm : JSValue)
    (hb : alGet st.toolCallBuffers (some idxV) = some ⟨bid, some nm, bargs⟩)
    (ht : truthyV nm = true)
    (hc : setMem st.completedToolCallIndices (some idxV) = false)
    (hp : tryParseJSONObject (bargs ++ a) = none) :
    processToolCall (mkArgFrag idxV a) st =
      some ([], { st with toolCallBuffers := alSet st.toolCallBuffers (some idxV) ⟨bid, some nm, bargs ++ a⟩ }) := by
  rw [processToolCall_eq (mkArgFrag idxV a) st (mkArgFrag_ne_null idxV a),
    mkArgFrag_index, if_neg (by rw [hc]; exact Bool.false_ne_true),
    applyToolFragment_mkArgFrag idxV a st ⟨bid, some nm, bargs⟩ hb,
    tryEmit_buf_noparse (some idxV) _ ⟨bid, some nm, bargs ++ a⟩ nm
      (by exact alGet_alSet_self st.toolCallBuffers (some idxV) _)
      (by exact rfl) ht (by exact hp)]

theorem ptc_step_parse (idxV : JSValue) (a : List Char) (st : DecoderState)
    (bid : Option JSValue) (bargs : List Char) (nm : JSValue)
    (fields : List (List Char × JSValue))
    (hb : alGet st.toolCallBuffers (some idxV) = some ⟨bid, some nm, bargs⟩)
    (ht : truthyV nm = true)
    (hc : setMem st.completedToolCallIndices (some idxV) = false)
    (hp : tryParseJSONObject (bargs ++ a) = some fields) :
    processToolCall (mkArgFrag idxV a) st =
      some ([SSEEvent.toolCall (cidOf bid st.callCtr) nm fields],
        { st with toolCallBuffers := alDel (alSet st.toolCallBuffers (some idxV) ⟨bid, some nm, bargs ++ a⟩) (some idxV), completedToolCallIndices := setAdd st.completedToolCallIndices (some idxV), callCtr := ctrOf bid st.callCtr }) := by
  rw [processToolCall_eq (mkArgFrag idxV a) st (mkArgFrag_ne_null idxV a),
    mkArgFrag_index, if_neg (by rw [hc]; exact Bool.false_ne_true),
    applyToolFragment_mkArgFrag idxV a st ⟨bid, some nm, bargs⟩ hb,
    tryEmit_buf_parse (some idxV) _ ⟨bid, some nm, bargs ++ a⟩ nm fields
      (by exact alGet_alSet_self st.toolCallBuffers (some idxV) _)
      (by exact rfl) ht (by exact hp)]

theorem ptc_step_completed (idxV : JSValue) (a : List Char) (st : DecoderState)
    (hc : setMem st.completedToolCallIndices (some idxV) = true) :
    processToolCall (mkArgFrag idxV a) st = some ([], st) := by
  rw [processToolCall_eq (mkArgFrag idxV a) st (mkArgFrag_ne_null idxV a),
    mkArgFrag_index, if_pos hc]

theorem processToolCalls_completedNoop (idxV : JSValue) :
    ∀ (as : List (List Char)) (st : DecoderState),
      setMem st.completedToolCallIndices (some idxV) = true →
      processToolCalls (as.map (mkArgFrag idxV)) st = ([], st, true)
  | [], st, _ => rfl
  | a :: as, st, hc => by
    simp only [List.map_cons, processToolCalls, ptc_step_completed idxV a st hc]
    rw [processToolCalls_completedNoop idxV as st hc]
    simp

theorem setMem_setAdd_self (s : List (Option JSValue)) (k : Option JSValue) :
    setMem (setAdd s k) k = true := by
  unfold setAdd
  split
  · assumption
  · simp [setMem_append, setMem]

theorem processToolCalls_cons (tc : JSValue) (rest : List JSValue) (st : DecoderState) :
    processToolCalls (tc :: rest) st =
      (match processToolCall tc st with
       | none => ([], st, false)
       | some (evs, st1) =>
         (evs ++ (processToolCalls rest st1).1, (processToolCalls rest st1).2)) := rfl

theorem c4_core (idxV nm : JSValue) (idOpt : Option JSValue) (htn : truthyV nm = true) :
    ∀ (as : List (List Char)) (a args0 : List Char) (st : DecoderState)
      (fs : List (List Char × JSValue)),
      alGet st.toolCallBuffers (some idxV) = some ⟨idOpt, some nm, args0⟩ →
      setMem st.completedToolCallIndices (some idxV) = false →
      tryParseJSONObject (args0 ++ (a :: as).flatten) = some fs →
      (processToolCalls ((a :: as).map (mkArgFrag idxV)) st).1
          = [SSEEvent.toolCall (cidOf idOpt st.callCtr) nm fs]
      ∧ (processToolCalls ((a :: as).map (mkArgFrag idxV)) st).2.2 = true
      ∧ setMem ((processToolCalls ((a :: as).map (mkArgFrag idxV)) st).2.1).completedToolCallIndices (some idxV) = true := by
  intro as
  induction as with
  | nil =>
    intro a args0 st fs hb hc hp
    have hp' : tryParseJSONObject (args0 ++ a) = some fs := by
      simpa using hp
    have hstep := ptc_step_parse idxV a st idOpt args0 nm fs hb htn hc (by exact hp')
    rw [List.map_cons, List.map_nil, processToolCalls_cons, hstep]
    dsimp only
    refine ⟨by simp [processToolCalls], by simp [processToolCalls], ?_⟩
    simp [processToolCalls, setMem_setAdd_self]
  | cons a2 rest ih =>
    intro a args0 st fs hb hc hp
    have hp2 : tryParseJSONObject ((args0 ++ a) ++ (a2 :: rest).flatten) = some fs := by
      rw [List.append_assoc]
      simpa using hp
    rcases hp1 : tryParseJSONObject (args0 ++ a) with _ | fs1
    · have hstep := ptc_step_noparse idxV a st idOpt args0 nm hb htn hc (by exact hp1)
      rw [List.map_cons, processToolCalls_cons, hstep]
      dsimp only
      have hb1 : alGet (alSet st.toolCallBuffers (some idxV) ⟨idOpt, some nm, args0 ++ a⟩)
          (some idxV) = some ⟨idOpt, some nm, args0 ++ a⟩ :=
        alGet_alSet_self st.toolCallBuffers (some idxV) _
      have hrec := ih a2 (args0 ++ a)
        { st with toolCallBuffers := alSet st.toolCallBuffers (some idxV) ⟨idOpt, some nm, args0 ++ a⟩ }
        fs (by exact hb1) (by exact hc) (by exact hp2)
      obtain ⟨h1, h2, h3⟩ := hrec
      refine ⟨by rw [List.nil_append]; exact h1, by exact h2, by exact h3⟩
    · have hfs : fs1 = fs := tryParse_prefix (args0 ++ a) ((a2 :: rest).flatten) fs1 fs hp1 hp2
      subst hfs
      have hstep := ptc_step_parse idxV a st idOpt args0 nm fs1 hb htn hc (by exact hp1)
      rw [List.map_cons, processToolCalls_cons, hstep]
      dsimp only
      have hnoop := processToolCalls_completedNoop idxV (a2 :: rest)
        { st with toolCallBuffers := alDel (alSet st.toolCallBuffers (some idxV) ⟨idOpt, some nm, args0 ++ a⟩) (some idxV), completedToolCallIndices := setAdd st.completedToolCallIndices (some idxV), callCtr := ctrOf idOpt st.callCtr }
        (by simpa using setMem_setAdd_self st.completedToolCallIndices (some idxV))
      rw [hnoop]
      refine ⟨by simp, by simp, ?_⟩
      simp [setMem_setAdd_self]

theorem c4_noemit (idxV nm : JSValue) (idOpt : Option JSValue) (htn : truthyV nm = true) :
    ∀ (as : List (List Char)) (args0 : List Char) (st : DecoderState),
      alGet st.toolCallBuffers (some idxV) = some ⟨idOpt, some nm, args0⟩ →
      setMem st.completedToolCallIndices (some idxV) = false →
      (∀ i, i ≤ as.length → tryParseJSONObject (args0 ++ (as.take i).flatten) = none) →
      (processToolCalls (as.map (mkArgFrag idxV)) st).1 = []
      ∧ (processToolCalls (as.map (mkArgFrag idxV)) st).2.2 = true := by
  intro as
  induction as with
  | nil =>
    intro args0 st _ _ _
    exact ⟨rfl, rfl⟩
  | cons a rest ih =>
    intro args0 st hb hc hnone
    have hp1 : tryParseJSONObject (args0 ++ a) = none := by
      have := hnone 1 (by simp)
      simpa using this
    have hstep := ptc_step_noparse idxV a st idOpt args0 nm hb htn hc (by exact hp1)
    rw [List.map_cons, processToolCalls_cons, hstep]
    dsimp only
    have hb1 : alGet (alSet st.toolCallBuffers (some idxV) ⟨idOpt, some nm, args0 ++ a⟩)
        (some idxV) = some ⟨idOpt, some nm, args0 ++ a⟩ :=
      alGet_alSet_self st.toolCallBuffers (some idxV) _
    have hrec := ih (args0 ++ a)
      { st with toolCallBuffers := alSet st.toolCallBuffers (some idxV) ⟨idOpt, some nm, args0 ++ a⟩ }
      (by exact hb1) (by exact hc)
      (by
        intro i hi
        have := hnone (i + 1) (by simpa using hi)
        simpa [List.append_assoc] using this)
    obtain ⟨h1, h2⟩ := hrec
    exact ⟨by rw [List.nil_append]; exact h1, by exact h2⟩

/-- Claim C4: given argument fragments for one index whose concatenation in arrival
order is a complete JSON object, with the buffer already holding a (truthy) function
name, exactly one finalized tool call is emitted for that index, carrying as
arguments exactly the fields of the parsed object; the call id is the buffered
provider id if present, else a freshly generated call id; processing reports success
and marks the index completed (so it is never emitted twice); and no call is emitted
while every accumulated prefix of the argument string still fails to parse. -/
theorem spec_C4 (idxV nm : JSValue) (idOpt : Option JSValue)
    (a : List Char) (as : List (List Char)) (st : DecoderState)
    (fs : List (List Char × JSValue))
    (hb : alGet st.toolCallBuffers (some idxV) = some ⟨idOpt, some nm, []⟩)
    (htn : truthyV nm = true)
    (hid : ∀ idv, idOpt = some idv → truthyV idv = true)
    (hc : setMem st.completedToolCallIndices (some idxV) = false)
    (hp : tryParseJSONObject (a :: as).flatten = some fs) :
    (processToolCalls ((a :: as).map (mkArgFrag idxV)) st).1
        = [SSEEvent.toolCall (idOpt.getD (.jstr (generateCallId st.callCtr))) nm fs]
    ∧ (processToolCalls ((a :: as).map (mkArgFrag idxV)) st).2.2 = true
    ∧ setMem ((processToolCalls ((a :: as).map (mkArgFrag idxV)) st).2.1).completedToolCallIndices (some idxV) = true
    ∧ (∀ j, (∀ i, i ≤ j → tryParseJSONObject (((a :: as).take i).flatten) = none) →
        (processToolCalls (((a :: as).take j).map (mkArgFrag idxV)) st).1 = []) := by
  have hcid : cidOf idOpt st.callCtr = idOpt.getD (.jstr (generateCallId st.callCtr)) := by
    rcases hio : idOpt with _ | idv
    · rfl
    · simp [cidOf, hid idv hio]
  obtain ⟨h1, h2, h3⟩ := c4_core idxV nm idOpt htn as a [] st fs hb hc (by simpa using hp)
  refine ⟨by rw [← hcid]; exact h1, h2, h3, ?_⟩
  intro j hnone
  rcases j with _ | j
  · simp [processToolCalls]
  · rcases le_or_lt (j + 1) (a :: as).length with hj | hj
    · have htake : ((a :: as).take (j + 1)) = a :: as.take j := by simp
      rw [htake]
      have hj' : j ≤ as.length := by simpa using hj
      refine (c4_noemit idxV nm idOpt htn (a :: as.take j) [] st hb hc ?_).1
      intro i hi
      have hlen : (a :: as.take j).length = j + 1 := by
        simp [List.length_take, Nat.min_eq_left hj']
      rw [hlen] at hi
      have htt : ((a :: as.take j).take i) = ((a :: as).take i) := by
        rw [← htake, List.take_take]
        congr 1
        omega
      rw [List.nil_append, htt]
      exact hnone i hi
    · have htake : ((a :: as).take (j + 1)) = a :: as := List.take_of_length_le (by omega)
      rw [htake]
      have := hnone (a :: as).length (by omega)
      rw [List.take_length] at this
      rw [this] at hp
      exact absurd hp (by simp)

theorem spec_C4_witness :
    (processToolCalls (["\x7b\"a\":".data, "1,\"b\":".data, "2\x7d".data].map
        (mkArgFrag (.jnum 0 0)))
        ⟨[(some (.jnum 0 0), ⟨none, some (.jstr "f".data), []⟩)], [], 0, false⟩).1
      = [SSEEvent.toolCall (.jstr (generateCallId 0)) (.jstr "f".data)
          [("a".data, .jnum 1 0), ("b".data, .jnum 2 0)]] :=
  (spec_C4 (.jnum 0 0) (.jstr "f".data) none "\x7b\"a\":".data
    ["1,\"b\":".data, "2\x7d".data]
    ⟨[(some (.jnum 0 0), ⟨none, some (.jstr "f".data), []⟩)], [], 0, false⟩
    [("a".data, .jnum 1 0), ("b".data, .jnum 2 0)]
    (by decide) (by decide) (fun idv h => Option.noConfusion h) (by decide) (by decide)).1
